import Mathlib

/-!
Shallow embedding of the translatity subtitle translation engine
(src/translation/translator.py) together with proofs about its
specification claims.

Modelling conventions:
* Python strings are `List Char`; the two fixed regular expressions used by
  the code are hand-compiled into scanners with the exact leftmost/greedy
  semantics of `re` (justification comments at each scanner).
* Python floats are modelled by rationals.
* The external conversational API is modelled by a finite trace of outcomes
  consumed in order; `random.uniform` jitter is an explicit parameter
  constrained by range hypotheses.
* The filesystem is a record of the progress file and the output file.
-/

namespace Translatity

/-- ASCII part of Python's whitespace class, as used by `\s` and `str.strip`. -/
def isPySpace (c : Char) : Bool :=
  c = ' ' || c = '\t' || c = '\n' || c = '\r' || c = '\x0b' || c = '\x0c'

/-- ASCII digit, modelling `\d` on the ASCII inputs the program handles. -/
def isD (c : Char) : Bool := c.isDigit

/-! ### The splitter for `re.split(r'\n\s*\n', content)`

A separator match is a newline, then greedily as much whitespace as possible
such that a final newline remains: i.e. a newline followed by the leading
whitespace run up to and including the last newline inside that run.
`trySepGo` scans the run, remembering the remainder after the most recent
newline; `none` means no separator match starts at the newline just before
the scanned list. -/

def trySepGo : List Char → Option (List Char) → Option (List Char)
  | [], best => best
  | c :: r, best =>
    if c = '\n' then trySepGo r (some r)
    else if isPySpace c then trySepGo r best
    else best

def trySep (l : List Char) : Option (List Char) := trySepGo l none

lemma trySepGo_length :
    ∀ (l : List Char) (b : Option (List Char)) (r : List Char),
      trySepGo l b = some r → r.length ≤ l.length ∨ b = some r := by
  intro l
  induction l with
  | nil => intro b r h; right; simpa [trySepGo] using h
  | cons c t ih =>
    intro b r h
    by_cases hc : c = '\n'
    · simp only [trySepGo, hc, if_pos] at h
      rcases ih (some t) r h with h1 | h1
      · left; exact Nat.le_succ_of_le h1
      · left
        simp only [Option.some.injEq] at h1
        subst h1
        exact Nat.le_succ_of_le le_rfl
    · by_cases hw : isPySpace c
      · simp only [trySepGo, hc, hw, ite_false, ite_true] at h
        rcases ih b r h with h1 | h1
        · left; exact Nat.le_succ_of_le h1
        · right; exact h1
      · simp only [trySepGo, hc, hw, ite_false] at h
        right; exact h

lemma trySep_length {l r : List Char} (h : trySep l = some r) :
    r.length ≤ l.length := by
  rcases trySepGo_length l none r h with h1 | h1
  · exact h1
  · cases h1

/-- `splitBlankAux l acc` models the tail of `re.split(r'\n\s*\n', _)`:
`acc` is the segment accumulated since the previous separator. -/
def splitBlankAux (l : List Char) (acc : List Char) : List (List Char) :=
  match l with
  | [] => [acc]
  | c :: rest =>
    if c = '\n' then
      match h : trySep rest with
      | some rest2 => acc :: splitBlankAux rest2 []
      | none => splitBlankAux rest (acc ++ [c])
    else splitBlankAux rest (acc ++ [c])
termination_by l.length
decreasing_by
  · exact Nat.lt_succ_of_le (trySep_length h)
  · exact Nat.lt_succ_self _
  · exact Nat.lt_succ_self _

/-- Model of `re.split(r'\n\s*\n', content)`. -/
def splitBlank (content : List Char) : List (List Char) := splitBlankAux content []

/-- Model of Python `str.strip()` (ASCII whitespace). -/
def stripChars (l : List Char) : List Char :=
  ((l.dropWhile isPySpace).reverse.dropWhile isPySpace).reverse

/-- After the leading digit run of `re.match(r'^\d+\s*\n', b)`, accept iff a
newline occurs with only whitespace before it (the backtracking semantics of
`\s*\n`: some whitespace prefix followed by a newline). -/
def matchIdxGo : List Char → Bool
  | [] => false
  | c :: r => if c = '\n' then true else if isPySpace c then matchIdxGo r else false

/-- Model of `re.match(r'^\d+\s*\n', b)` as a Boolean: a nonempty leading
digit run, then whitespace up to a newline. -/
def matchLeadingIndex (l : List Char) : Bool :=
  decide (l.takeWhile isD ≠ []) && matchIdxGo (l.dropWhile isD)

/-- Model of `extract_srt_blocks`: split on blank-line separators, strip each
segment, keep nonempty ones, keep those whose first line is a bare integer. -/
def extract_srt_blocks (content : List Char) : List (List Char) :=
  (((splitBlank content).map stripChars).filter
      (fun b => decide (b ≠ []))).filter matchLeadingIndex

/-! ### The counter for
`re.findall(r'^\d+\s*\n\d{2}:\d{2}:\d{2},\d{3}\s*-->', content, re.MULTILINE)` -/

/-- Match `\d{2}:\d{2}:\d{2},\d{3}\s*-->` at the head, returning the matched
length.  The `\s*` before `-->` is deterministic: `-` is not whitespace, so
only the maximal whitespace run can precede it. -/
def matchTimingLen : List Char → Option Nat
  | a :: b :: c1 :: c2 :: c3 :: c4 :: c5 :: c6 :: c7 :: c8 :: c9 :: c10 :: rest =>
    if isD a && isD b && decide (c1 = ':') && isD c2 && isD c3 && decide (c4 = ':')
        && isD c5 && isD c6 && decide (c7 = ',') && isD c8 && isD c9 && isD c10 then
      match rest.dropWhile isPySpace with
      | '-' :: '-' :: '>' :: _ => some (12 + (rest.takeWhile isPySpace).length + 3)
      | _ => none
    else none
  | _ => none

/-- Match `\d+\s*\n` followed by the timing pattern at the head, returning the
matched length.  `\d+` is effectively possessive (a shorter digit run leaves a
digit where `\s*\n` must match).  The `\s*\n` part must consume the whole
leading whitespace run, whose last character must be the newline: any shorter
choice leaves a whitespace character where the timing's first digit is
required.  -/
def matchBlockHeadLen (l : List Char) : Option Nat :=
  let ds := l.takeWhile isD
  if ds = [] then none
  else
    let r1 := l.dropWhile isD
    let w := r1.takeWhile isPySpace
    if w.getLast? = some '\n' then
      match matchTimingLen (r1.dropWhile isPySpace) with
      | some n => some (ds.length + w.length + n)
      | none => none
    else none

/-- Scanner for the `findall` count: `atStart` tracks whether the current
position is at the start of a line (`re.MULTILINE` anchor `^`).  A match ends
just after `-->`, which is not a newline, so scanning resumes mid-line. -/
def countAux (l : List Char) (atStart : Bool) : Nat :=
  match l with
  | [] => 0
  | c :: rest =>
    if atStart then
      match matchBlockHeadLen (c :: rest) with
      | some n => 1 + countAux (rest.drop (n - 1)) false
      | none => countAux rest (decide (c = '\n'))
    else countAux rest (decide (c = '\n'))
termination_by l.length
decreasing_by
  · exact Nat.lt_succ_of_le (List.length_drop .. ▸ Nat.sub_le _ _)
  · exact Nat.lt_succ_self _
  · exact Nat.lt_succ_self _

/-- Model of `count_srt_blocks`. -/
def count_srt_blocks (content : List Char) : Nat := countAux content true

/-- Model of `'\n\n'.join(blocks)`. -/
def joinSep : List (List Char) → List Char
  | [] => []
  | [b] => b
  | b :: bs => b ++ '\n' :: '\n' :: joinSep bs

/-! ### Credential rotation (`APIKeyRotator`) -/

structure RotatorState where
  apiKeys : List String
  currentKeyIndex : Nat
  exhaustedKeys : List String
deriving DecidableEq

/-- `APIKeyRotator.__init__`: rejects an empty key list (`ValueError`). -/
def mkRotator (keys : List String) : Option RotatorState :=
  if keys = [] then none else some ⟨keys, 0, []⟩

def getCurrentKey (st : RotatorState) : String := st.apiKeys.getD st.currentKeyIndex ""

/-- `rotate_key`: advance the index circularly. -/
def rotateKey (st : RotatorState) : RotatorState :=
  { st with currentKeyIndex := (st.currentKeyIndex + 1) % st.apiKeys.length }

/-- `mark_key_exhausted`: add to the exhausted set (a Python `set`, modelled
as a duplicate-free list so that its length is the set's size). -/
def markKeyExhausted (st : RotatorState) (k : String) : RotatorState :=
  if k ∈ st.exhaustedKeys then st else { st with exhaustedKeys := k :: st.exhaustedKeys }

def hasAvailableKeys (st : RotatorState) : Bool :=
  decide (st.exhaustedKeys.length < st.apiKeys.length)

/-! ### Translator state and request execution (`SRTTranslator`) -/

def maxRetriesC : Nat := 5
def baseDelayC : ℚ := 30
def maxBackoffC : ℚ := 300

/-- Translator state: the rotator, the key the model binding was configured
with (`_initialize_model` calls `genai.configure` with the current key), and
the two near-completion counters. -/
structure EngineState where
  rot : RotatorState
  model : String
  nearCount : Nat
  lastCount : Nat
deriving DecidableEq

/-- `_initialize_model` binds the model to the rotator's current key. -/
def initializeModel (rot : RotatorState) : String := getCurrentKey rot

/-- `_calculate_backoff` with the uniform jitter draw as a parameter. -/
def calculateBackoff (retryCount : Nat) (jitter : ℚ) : ℚ :=
  min maxBackoffC (baseDelayC * 2 ^ retryCount) + jitter

/-- `_wait_with_backoff`: the sleep duration, or `none` when no sleep occurs.
Note the code sleeps for `_calculate_backoff(retry_count - 1)`. -/
def waitWithBackoff (retryCount : Nat) (jitter : ℚ) : Option ℚ :=
  if 0 < retryCount then some (calculateBackoff (retryCount - 1) jitter) else none

/-- `_handle_quota_exhaustion`: mark the current key exhausted; if no key
remains, raise (the error carries the mutated state, since the marking
happened before the raise); otherwise rotate and reinitialize the model. -/
def handleQuotaExhaustion (st : EngineState) : Except (String × EngineState) EngineState :=
  let r1 := markKeyExhausted st.rot (getCurrentKey st.rot)
  if hasAvailableKeys r1 then
    let r2 := rotateKey r1
    Except.ok { st with rot := r2, model := initializeModel r2 }
  else
    Except.error ("All API keys have been exhausted", { st with rot := r1 })

/-- `_check_near_completion`.  The float division is modelled over `ℚ`; the
`totalBlocks = 0` guard models Python's `ZeroDivisionError`, raised at the
division before any counter update. -/
def checkNearCompletion (st : EngineState) (currentBlocks totalBlocks : Nat) :
    Except String (Bool × EngineState) :=
  if totalBlocks = 0 then Except.error "ZeroDivisionError"
  else
    let pct : ℚ := (currentBlocks : ℚ) / (totalBlocks : ℚ) * 100
    let nc : Nat :=
      if 99 ≤ pct then (if currentBlocks = st.lastCount then st.nearCount + 1 else 1) else 0
    Except.ok (decide (2 ≤ nc), { st with nearCount := nc, lastCount := currentBlocks })

/-- One response of the external API, as seen by `_make_api_request`. -/
inductive ApiOutcome where
  | success (text : List Char)
  | resourceExhausted
  | otherError (msg : String)
deriving DecidableEq

/-- The outcome of `_make_api_request`: a response, the fatal
all-credentials-exhausted error, a propagated other error, or `pending` when
the finite modelled trace is exhausted (the real call would still be
running). -/
inductive ApiResult where
  | response (text : List Char)
  | fatalAllExhausted
  | raised (msg : String)
  | pending
deriving DecidableEq

/-- `_make_api_request` over a trace of outcomes, returning the state after
the call, the unconsumed trace, and the result.  On `ResourceExhausted`: if
`retry_count >= max_retries - 1`, handle quota exhaustion and restart at
attempt 0; otherwise retry with `retry_count + 1`.  Other errors propagate. -/
def makeApiRequest (st : EngineState) (outcomes : List ApiOutcome) (retryCount : Nat) :
    EngineState × List ApiOutcome × ApiResult :=
  match outcomes with
  | [] => (st, [], ApiResult.pending)
  | o :: rest =>
    match o with
    | ApiOutcome.success t => (st, rest, ApiResult.response t)
    | ApiOutcome.otherError m => (st, rest, ApiResult.raised m)
    | ApiOutcome.resourceExhausted =>
      if maxRetriesC - 1 ≤ retryCount then
        match handleQuotaExhaustion st with
        | Except.error e => (e.2, rest, ApiResult.fatalAllExhausted)
        | Except.ok st2 => makeApiRequest st2 rest 0
      else makeApiRequest st rest (retryCount + 1)

lemma makeApiRequest_remaining_lt :
    ∀ (outcomes : List ApiOutcome) (st : EngineState) (k : Nat), outcomes ≠ [] →
      (makeApiRequest st outcomes k).2.1.length < outcomes.length := by
  intro outcomes
  induction outcomes with
  | nil => intro st k h; exact absurd rfl h
  | cons o rest ih =>
    intro st k _
    cases o with
    | success t => simp [makeApiRequest]
    | otherError m => simp [makeApiRequest]
    | resourceExhausted =>
      simp only [makeApiRequest]
      split
      · split
        · simpa using Nat.lt_succ_self _
        · rcases Decidable.em (rest = []) with h0 | h0
          · subst h0; simp [makeApiRequest]
          · exact Nat.lt_trans (ih _ 0 h0) (Nat.lt_succ_self _)
      · rcases Decidable.em (rest = []) with h0 | h0
        · subst h0; simp [makeApiRequest]
        · exact Nat.lt_trans (ih _ _ h0) (Nat.lt_succ_self _)

/-! ### `translate_file` -/

/-- The filesystem as seen by one job: the progress file and the output
file contents, when present. -/
structure FS where
  progress : Option (List Char)
  output : Option (List Char)
deriving DecidableEq

inductive JobResult where
  | completed
  | cancelled
  | fatalAllExhausted
  | raised (msg : String)
  | pending
deriving DecidableEq

/-- The observable outcome of a `translate_file` run: final filesystem,
result, the successive progress-file writes, the `(current, total)` arguments
of each `_check_near_completion` call, and the final translator state. -/
structure RunResult where
  fs : FS
  res : JobResult
  writes : List (List Char)
  checks : List (Nat × Nat)
  st : EngineState
deriving DecidableEq

/-- Deduplicating append: `for block in new: if block not in acc: acc.append(block)`. -/
def appendNew (acc new : List (List Char)) : List (List Char) :=
  new.foldl (fun a b => if b ∈ a then a else a ++ [b]) acc

/-- The success epilogue of `translate_file`: write the output file, then
delete the progress file if progress saving is on and the file exists. -/
def finishJob (fs : FS) (translated : List (List Char)) (saveProgress : Bool)
    (writes : List (List Char)) (checks : List (Nat × Nat)) (st : EngineState) : RunResult :=
  let fs1 : FS := { fs with output := some (joinSep translated) }
  let fs2 : FS :=
    if saveProgress ∧ fs1.progress ≠ none then { fs1 with progress := none } else fs1
  ⟨fs2, JobResult.completed, writes, checks, st⟩

/-- The `while len(translated_content) < total_blocks` loop of
`translate_file`: poll cancellation, run the completion heuristic, issue a
continuation request, deduplicate and append its blocks, persist progress. -/
def translateLoop (st : EngineState) (translated : List (List Char)) (totalBlocks : Nat)
    (saveProgress : Bool) (fs : FS) (outcomes : List ApiOutcome) (cancels : List Bool)
    (writes : List (List Char)) (checks : List (Nat × Nat)) : RunResult :=
  if totalBlocks ≤ translated.length then finishJob fs translated saveProgress writes checks st
  else if cancels.headD false then ⟨fs, JobResult.cancelled, writes, checks, st⟩
  else
    match checkNearCompletion st translated.length totalBlocks with
    | Except.error m => ⟨fs, JobResult.raised m, writes, checks ++ [(translated.length, totalBlocks)], st⟩
    | Except.ok (stop, st1) =>
      if stop then
        finishJob fs translated saveProgress writes (checks ++ [(translated.length, totalBlocks)]) st1
      else
        match outcomes with
        | [] => ⟨fs, JobResult.pending, writes, checks ++ [(translated.length, totalBlocks)], st1⟩
        | o :: rest =>
          match hreq : makeApiRequest st1 (o :: rest) 0 with
          | (st2, remaining, result) =>
            match result with
            | ApiResult.response t =>
              let translated1 := appendNew translated (extract_srt_blocks t)
              let fs1 : FS :=
                if saveProgress then { fs with progress := some (joinSep translated1) } else fs
              let writes1 :=
                if saveProgress then writes ++ [joinSep translated1] else writes
              translateLoop st2 translated1 totalBlocks saveProgress fs1 remaining cancels.tail
                writes1 (checks ++ [(translated.length, totalBlocks)])
            | ApiResult.fatalAllExhausted =>
              ⟨fs, JobResult.fatalAllExhausted, writes, checks ++ [(translated.length, totalBlocks)], st2⟩
            | ApiResult.raised m =>
              ⟨fs, JobResult.raised m, writes, checks ++ [(translated.length, totalBlocks)], st2⟩
            | ApiResult.pending =>
              ⟨fs, JobResult.pending, writes, checks ++ [(translated.length, totalBlocks)], st2⟩
  termination_by outcomes.length
  decreasing_by
    have h0 := makeApiRequest_remaining_lt (o :: rest) st1 0 (by simp)
    rw [hreq] at h0
    exact h0

/-- The blocks adopted from an existing progress file at job start
(`if save_progress and progress_path.exists()` followed by the nonemptiness
test on the extracted blocks). -/
def loadedProgress (initialFS : FS) (saveProgress : Bool) : List (List Char) :=
  match initialFS.progress with
  | some pc => if saveProgress then extract_srt_blocks pc else []
  | none => []

/-- `translate_file` for one input: compute the total, load progress if
present and nonempty, otherwise issue the first request and persist its
blocks, then run the continuation loop. -/
def translateFile (inputContent : List Char) (initialFS : FS) (saveProgress : Bool)
    (outcomes : List ApiOutcome) (cancels : List Bool) (st0 : EngineState) : RunResult :=
  let totalBlocks := count_srt_blocks inputContent
  let loaded : List (List Char) := loadedProgress initialFS saveProgress
  if loaded ≠ [] then
    translateLoop st0 loaded totalBlocks saveProgress initialFS outcomes cancels [] []
  else
    match outcomes with
    | [] => ⟨initialFS, JobResult.pending, [], [], st0⟩
    | o :: rest =>
      match makeApiRequest st0 (o :: rest) 0 with
      | (st1, remaining, result) =>
        match result with
        | ApiResult.response t =>
          let translated := extract_srt_blocks t
          let fs1 : FS :=
            if saveProgress then { initialFS with progress := some (joinSep translated) } else initialFS
          let writes1 := if saveProgress then [joinSep translated] else []
          translateLoop st1 translated totalBlocks saveProgress fs1 remaining cancels writes1 []
        | ApiResult.fatalAllExhausted => ⟨initialFS, JobResult.fatalAllExhausted, [], [], st1⟩
        | ApiResult.raised m => ⟨initialFS, JobResult.raised m, [], [], st1⟩
        | ApiResult.pending => ⟨initialFS, JobResult.pending, [], [], st1⟩

/-- Run a sequence of `_check_near_completion` calls against a fixed total,
collecting the returned Booleans (stopping if the division raises). -/
def runChecks (st : EngineState) (total : Nat) (calls : List Nat) :
    List Bool × EngineState :=
  match calls with
  | [] => ([], st)
  | c :: cs =>
    match checkNearCompletion st c total with
    | Except.error _ => ([], st)
    | Except.ok (b, st2) =>
      let r := runChecks st2 total cs
      (b :: r.1, r.2)

/-- The progress file contents after a run: the last write if any, otherwise
whatever was there initially. -/
def lastWriteOr (writes : List (List Char)) (init : Option (List Char)) : Option (List Char) :=
  match writes.getLast? with
  | some w => some w
  | none => init

/-! ### Well-formed subtitle input (for the codec claims)

The spec describes input as blocks separated by blank lines, each block an
integer index line, a timing line `HH:MM:SS,mmm --> HH:MM:SS,mmm`, and one or
more text lines.  `SrtBlock` is that shape; `renderBlocks` produces the clean
concatenation. -/

structure Timestamp where
  hh : Nat
  mm : Nat
  ss : Nat
  ms : Nat
deriving DecidableEq

def digitChar (n : Nat) : Char := Char.ofNat (48 + n)

def pad2 (n : Nat) : List Char := [digitChar (n / 10), digitChar (n % 10)]

def pad3 (n : Nat) : List Char := [digitChar (n / 100), digitChar (n / 10 % 10), digitChar (n % 10)]

def renderTimestamp (t : Timestamp) : List Char :=
  pad2 t.hh ++ ':' :: (pad2 t.mm ++ ':' :: (pad2 t.ss ++ ',' :: pad3 t.ms))

def wfTimestamp (t : Timestamp) : Bool :=
  decide (t.hh < 100) && decide (t.mm < 100) && decide (t.ss < 100) && decide (t.ms < 1000)

structure SrtBlock where
  idx : List Char
  startT : Timestamp
  endT : Timestamp
  lines : List (List Char)
deriving DecidableEq

def noNl (l : List Char) : Bool := decide ('\n' ∉ l)

def hasNonWs (l : List Char) : Bool := l.any (fun c => !isPySpace c)

/-- A line of the shape `\d+\s*` in its entirety (a bare integer line,
possibly with trailing whitespace). -/
def isIndexLike (l : List Char) : Bool :=
  decide (l.takeWhile isD ≠ []) && (l.dropWhile isD).all isPySpace

/-- Well-formed block exactly as the claim words it: integer index line,
timing line, one or more nonempty newline-free text lines. -/
def wfBlockLiberal (b : SrtBlock) : Bool :=
  decide (b.idx ≠ []) && b.idx.all isD && wfTimestamp b.startT && wfTimestamp b.endT &&
    decide (b.lines ≠ []) && b.lines.all (fun l => noNl l && hasNonWs l)

/-- Well-formed block, additionally requiring that no text line is itself a
bare integer line (which would let the counting regex see a spurious block
start). -/
def wfBlock (b : SrtBlock) : Bool :=
  wfBlockLiberal b && b.lines.all (fun l => !isIndexLike l)

/-- Model of `'\n'.join(lines)`. -/
def joinNl : List (List Char) → List Char
  | [] => []
  | [l] => l
  | l :: ls => l ++ '\n' :: joinNl ls

def timingLine (b : SrtBlock) : List Char :=
  renderTimestamp b.startT ++ ' ' :: '-' :: '-' :: '>' :: ' ' :: renderTimestamp b.endT

def renderBlock (b : SrtBlock) : List Char :=
  b.idx ++ '\n' :: (timingLine b ++ '\n' :: joinNl b.lines)

/-- A clean concatenation of blocks: serialized blocks separated by blank
lines. -/
def renderBlocks (bs : List SrtBlock) : List Char := joinSep (bs.map renderBlock)

/-- Segment invariant of the splitter: after every newline, the leading
whitespace run holds no further newline (no blank-line separator inside). -/
def PpB : List Char → Bool
  | [] => true
  | c :: r =>
    (if c = '\n' then !(decide ('\n' ∈ r.takeWhile isPySpace)) else true) && PpB r

/-- Companion invariant: after every newline a non-whitespace character
still follows. -/
def WtB : List Char → Bool
  | [] => true
  | c :: r => (if c = '\n' then hasNonWs r else true) && WtB r

/-- Concrete two-credential state used by witnesses. -/
def stW : EngineState := ⟨⟨["k1", "k2"], 0, []⟩, "k1", 0, 0⟩

/-- A block whose second text line looks like a timing line and whose first
text line is a bare integer: well-formed in the liberal sense, yet the
counting regex sees a second block start inside it. -/
def cxBlock : SrtBlock :=
  ⟨['1'], ⟨0, 0, 0, 0⟩, ⟨0, 0, 1, 0⟩,
    [['2'], "00:00:01,000 --> 00:00:02,000".data]⟩

/-- A block with an ordinary text line, well-formed in the strict sense. -/
def wBlock : SrtBlock := ⟨['1'], ⟨0, 0, 0, 0⟩, ⟨0, 0, 1, 0⟩, [['H', 'i']]⟩

/-! ### Stepping equations for `translateLoop` -/

set_option maxHeartbeats 1000000 in
lemma translateLoop_done {st translated totalBlocks save fs outcomes cancels writes checks}
    (h : totalBlocks ≤ List.length translated) :
    translateLoop st translated totalBlocks save fs outcomes cancels writes checks
      = finishJob fs translated save writes checks st := by
  rw [translateLoop]
  rw [if_pos h]

lemma translateLoop_cancelled {st translated totalBlocks save fs outcomes cancels writes checks}
    (h1 : ¬ totalBlocks ≤ List.length translated) (h2 : cancels.headD false = true) :
    translateLoop st translated totalBlocks save fs outcomes cancels writes checks
      = ⟨fs, JobResult.cancelled, writes, checks, st⟩ := by
  rw [translateLoop]
  rw [if_neg h1, if_pos h2]

lemma translateLoop_checkErr {st translated totalBlocks save fs outcomes cancels writes checks m}
    (h1 : ¬ totalBlocks ≤ List.length translated) (h2 : cancels.headD false = false)
    (h3 : checkNearCompletion st (List.length translated) totalBlocks = Except.error m) :
    translateLoop st translated totalBlocks save fs outcomes cancels writes checks
      = ⟨fs, JobResult.raised m, writes, checks ++ [(List.length translated, totalBlocks)], st⟩ := by
  rw [translateLoop]
  rw [if_neg h1, if_neg (show ¬ (cancels.headD false = true) by rw [h2]; simp), h3]

lemma translateLoop_stop {st st1 translated totalBlocks save fs outcomes cancels writes checks}
    (h1 : ¬ totalBlocks ≤ List.length translated) (h2 : cancels.headD false = false)
    (h3 : checkNearCompletion st (List.length translated) totalBlocks = Except.ok (true, st1)) :
    translateLoop st translated totalBlocks save fs outcomes cancels writes checks
      = finishJob fs translated save writes (checks ++ [(List.length translated, totalBlocks)]) st1 := by
  rw [translateLoop]
  rw [if_neg h1, if_neg (show ¬ (cancels.headD false = true) by rw [h2]; simp), h3]
  exact rfl

lemma translateLoop_nilOutcomes {st st1 translated totalBlocks save fs cancels writes checks}
    (h1 : ¬ totalBlocks ≤ List.length translated) (h2 : cancels.headD false = false)
    (h3 : checkNearCompletion st (List.length translated) totalBlocks = Except.ok (false, st1)) :
    translateLoop st translated totalBlocks save fs [] cancels writes checks
      = ⟨fs, JobResult.pending, writes, checks ++ [(List.length translated, totalBlocks)], st1⟩ := by
  rw [translateLoop]
  rw [if_neg h1, if_neg (show ¬ (cancels.headD false = true) by rw [h2]; simp), h3]
  exact rfl

lemma translateLoop_response {st st1 st2 translated totalBlocks save fs o rest remaining t cancels
    writes checks}
    (h1 : ¬ totalBlocks ≤ List.length translated) (h2 : cancels.headD false = false)
    (h3 : checkNearCompletion st (List.length translated) totalBlocks = Except.ok (false, st1))
    (hreq : makeApiRequest st1 (o :: rest) 0 = (st2, remaining, ApiResult.response t)) :
    translateLoop st translated totalBlocks save fs (o :: rest) cancels writes checks
      = translateLoop st2 (appendNew translated (extract_srt_blocks t)) totalBlocks save
          (if save = true
            then { fs with progress := some (joinSep (appendNew translated (extract_srt_blocks t))) }
            else fs)
          remaining cancels.tail
          (if save = true then writes ++ [joinSep (appendNew translated (extract_srt_blocks t))]
            else writes)
          (checks ++ [(List.length translated, totalBlocks)]) := by
  rw [translateLoop]
  rw [if_neg h1, if_neg (show ¬ (cancels.headD false = true) by rw [h2]; simp), h3]
  simp only [hreq]
  rw [if_neg (by simp : ¬ (false = true))]
  split
  all_goals rename_i t2 hh
  all_goals rw [hreq] at t2
  all_goals simp only at t2
  all_goals cases t2
  all_goals rfl

lemma translateLoop_fatal {st st1 st2 translated totalBlocks save fs o rest remaining cancels
    writes checks}
    (h1 : ¬ totalBlocks ≤ List.length translated) (h2 : cancels.headD false = false)
    (h3 : checkNearCompletion st (List.length translated) totalBlocks = Except.ok (false, st1))
    (hreq : makeApiRequest st1 (o :: rest) 0 = (st2, remaining, ApiResult.fatalAllExhausted)) :
    translateLoop st translated totalBlocks save fs (o :: rest) cancels writes checks
      = ⟨fs, JobResult.fatalAllExhausted, writes,
          checks ++ [(List.length translated, totalBlocks)], st2⟩ := by
  rw [translateLoop]
  rw [if_neg h1, if_neg (show ¬ (cancels.headD false = true) by rw [h2]; simp), h3]
  simp only [hreq]
  rw [if_neg (by simp : ¬ (false = true))]
  split
  all_goals rename_i t2 hh
  all_goals rw [hreq] at t2
  all_goals simp only at t2
  all_goals cases t2
  all_goals rfl

lemma translateLoop_raisedStep {st st1 st2 translated totalBlocks save fs o rest remaining m cancels
    writes checks}
    (h1 : ¬ totalBlocks ≤ List.length translated) (h2 : cancels.headD false = false)
    (h3 : checkNearCompletion st (List.length translated) totalBlocks = Except.ok (false, st1))
    (hreq : makeApiRequest st1 (o :: rest) 0 = (st2, remaining, ApiResult.raised m)) :
    translateLoop st translated totalBlocks save fs (o :: rest) cancels writes checks
      = ⟨fs, JobResult.raised m, writes,
          checks ++ [(List.length translated, totalBlocks)], st2⟩ := by
  rw [translateLoop]
  rw [if_neg h1, if_neg (show ¬ (cancels.headD false = true) by rw [h2]; simp), h3]
  simp only [hreq]
  rw [if_neg (by simp : ¬ (false = true))]
  split
  all_goals rename_i t2 hh
  all_goals rw [hreq] at t2
  all_goals simp only at t2
  all_goals cases t2
  all_goals rfl

lemma translateLoop_pendingStep {st st1 st2 translated totalBlocks save fs o rest remaining cancels
    writes checks}
    (h1 : ¬ totalBlocks ≤ List.length translated) (h2 : cancels.headD false = false)
    (h3 : checkNearCompletion st (List.length translated) totalBlocks = Except.ok (false, st1))
    (hreq : makeApiRequest st1 (o :: rest) 0 = (st2, remaining, ApiResult.pending)) :
    translateLoop st translated totalBlocks save fs (o :: rest) cancels writes checks
      = ⟨fs, JobResult.pending, writes,
          checks ++ [(List.length translated, totalBlocks)], st2⟩ := by
  rw [translateLoop]
  rw [if_neg h1, if_neg (show ¬ (cancels.headD false = true) by rw [h2]; simp), h3]
  simp only [hreq]
  rw [if_neg (by simp : ¬ (false = true))]
  split
  all_goals rename_i t2 hh
  all_goals rw [hreq] at t2
  all_goals simp only at t2
  all_goals cases t2
  all_goals rfl

lemma lastWriteOr_append {ws : List (List Char)} {w : List Char} {p : Option (List Char)} :
    lastWriteOr (ws ++ [w]) p = some w := by
  simp [lastWriteOr, List.getLast?_concat]

/-- Outside the success epilogue, `translateLoop` never deletes the progress
file (it always holds the last write, or the initial contents when nothing
was written) and never writes the output file. -/
lemma translateLoop_preserves :
    ∀ (N : Nat) (outcomes : List ApiOutcome), outcomes.length ≤ N →
    ∀ (st : EngineState) (translated : List (List Char)) (total : Nat) (save : Bool)
      (fs : FS) (cancels : List Bool) (writes : List (List Char)) (checks : List (Nat × Nat))
      (pInit : Option (List Char)) (oInit : Option (List Char)),
      fs.progress = lastWriteOr writes pInit → fs.output = oInit →
      (translateLoop st translated total save fs outcomes cancels writes checks).res
          ≠ JobResult.completed →
      (translateLoop st translated total save fs outcomes cancels writes checks).fs.progress
          = lastWriteOr
              (translateLoop st translated total save fs outcomes cancels writes checks).writes
              pInit ∧
      (translateLoop st translated total save fs outcomes cancels writes checks).fs.output
          = oInit := by
  intro N
  induction N using Nat.strong_induction_on with
  | _ N ih =>
    intro outcomes hlen st translated total save fs cancels writes checks pInit oInit hfsp hfso
    by_cases hdone : total ≤ translated.length
    · rw [translateLoop_done hdone]
      intro hres
      exact absurd rfl hres
    · cases hcan : cancels.headD false with
      | true =>
        rw [translateLoop_cancelled hdone hcan]
        intro _
        exact ⟨hfsp, hfso⟩
      | false =>
        cases hchk : checkNearCompletion st translated.length total with
        | error m =>
          rw [translateLoop_checkErr hdone hcan hchk]
          intro _
          exact ⟨hfsp, hfso⟩
        | ok pr =>
          rcases pr with ⟨stop, st1⟩
          cases stop with
          | true =>
            rw [translateLoop_stop hdone hcan hchk]
            intro hres
            exact absurd rfl hres
          | false =>
            cases outcomes with
            | nil =>
              rw [translateLoop_nilOutcomes hdone hcan hchk]
              intro _
              exact ⟨hfsp, hfso⟩
            | cons o rest =>
              rcases hreq : makeApiRequest st1 (o :: rest) 0 with ⟨st2, remaining, result⟩
              have hlt : remaining.length < N := by
                have h0 := makeApiRequest_remaining_lt (o :: rest) st1 0 (by simp)
                rw [hreq] at h0
                exact Nat.lt_of_lt_of_le h0 hlen
              cases result with
              | response t =>
                rw [translateLoop_response hdone hcan hchk hreq]
                refine ih remaining.length hlt remaining le_rfl st2 _ total save _
                  cancels.tail _ _ pInit oInit ?_ ?_
                · by_cases hs : save = true
                  · simp only [hs, if_pos]
                    exact lastWriteOr_append.symm
                  · simp only [hs, if_neg, ite_false]
                    exact hfsp
                · by_cases hs : save = true
                  · simp only [hs, if_pos]
                    exact hfso
                  · simp only [hs, if_neg, ite_false]
                    exact hfso
              | fatalAllExhausted =>
                rw [translateLoop_fatal hdone hcan hchk hreq]
                intro _
                exact ⟨hfsp, hfso⟩
              | raised m =>
                rw [translateLoop_raisedStep hdone hcan hchk hreq]
                intro _
                exact ⟨hfsp, hfso⟩
              | pending =>
                rw [translateLoop_pendingStep hdone hcan hchk hreq]
                intro _
                exact ⟨hfsp, hfso⟩

/-- Every `(current, total)` pair passed to the completion heuristic by the
loop has `total ≥ 1`: the loop body runs only under the guard
`translated.length < total`. -/
lemma translateLoop_checks_pos :
    ∀ (N : Nat) (outcomes : List ApiOutcome), outcomes.length ≤ N →
    ∀ (st : EngineState) (translated : List (List Char)) (total : Nat) (save : Bool)
      (fs : FS) (cancels : List Bool) (writes : List (List Char)) (checks : List (Nat × Nat)),
      (∀ p ∈ checks, 1 ≤ p.2) →
      ∀ p ∈ (translateLoop st translated total save fs outcomes cancels writes checks).checks,
        1 ≤ p.2 := by
  intro N
  induction N using Nat.strong_induction_on with
  | _ N ih =>
    intro outcomes hlen st translated total save fs cancels writes checks hchecks
    by_cases hdone : total ≤ translated.length
    · rw [translateLoop_done hdone]
      exact hchecks
    · have htot : 1 ≤ total := by omega
      have hchecks1 : ∀ p ∈ checks ++ [(translated.length, total)], 1 ≤ p.2 := by
        intro p hp
        rcases List.mem_append.mp hp with hp | hp
        · exact hchecks p hp
        · simp only [List.mem_singleton] at hp
          subst hp
          exact htot
      cases hcan : cancels.headD false with
      | true =>
        rw [translateLoop_cancelled hdone hcan]
        exact hchecks
      | false =>
        cases hchk : checkNearCompletion st translated.length total with
        | error m =>
          rw [translateLoop_checkErr hdone hcan hchk]
          exact hchecks1
        | ok pr =>
          rcases pr with ⟨stop, st1⟩
          cases stop with
          | true =>
            rw [translateLoop_stop hdone hcan hchk]
            exact hchecks1
          | false =>
            cases outcomes with
            | nil =>
              rw [translateLoop_nilOutcomes hdone hcan hchk]
              exact hchecks1
            | cons o rest =>
              rcases hreq : makeApiRequest st1 (o :: rest) 0 with ⟨st2, remaining, result⟩
              have hlt : remaining.length < N := by
                have h0 := makeApiRequest_remaining_lt (o :: rest) st1 0 (by simp)
                rw [hreq] at h0
                exact Nat.lt_of_lt_of_le h0 hlen
              cases result with
              | response t =>
                rw [translateLoop_response hdone hcan hchk hreq]
                exact ih remaining.length hlt remaining le_rfl st2 _ total save _
                  cancels.tail _ _ hchecks1
              | fatalAllExhausted =>
                rw [translateLoop_fatal hdone hcan hchk hreq]
                exact hchecks1
              | raised m =>
                rw [translateLoop_raisedStep hdone hcan hchk hreq]
                exact hchecks1
              | pending =>
                rw [translateLoop_pendingStep hdone hcan hchk hreq]
                exact hchecks1

/-! ## Claim C4: backoff bound and monotonicity -/

/-- C4: with base_delay 30 and max_backoff 300, every backoff delay (computed
delay plus any admissible jitter) is at most `max_backoff * 1.1`; and below
the cap (attempt n+1 still uncapped), every admissible delay at attempt n+1
is at least every admissible delay at attempt n. -/
theorem backoff_bounded_and_monotone :
    (∀ (n : Nat) (j : ℚ), 0 ≤ j →
      j ≤ 1 / 10 * min maxBackoffC (baseDelayC * 2 ^ n) →
      calculateBackoff n j ≤ maxBackoffC * (11 / 10)) ∧
    (∀ (n : Nat) (j1 j2 : ℚ),
      baseDelayC * 2 ^ (n + 1) ≤ maxBackoffC →
      0 ≤ j1 → j1 ≤ 1 / 10 * min maxBackoffC (baseDelayC * 2 ^ n) →
      0 ≤ j2 → j2 ≤ 1 / 10 * min maxBackoffC (baseDelayC * 2 ^ (n + 1)) →
      calculateBackoff n j1 ≤ calculateBackoff (n + 1) j2) := by
  constructor
  · intro n j _ hj2
    have hmin : min maxBackoffC (baseDelayC * 2 ^ n) ≤ maxBackoffC := min_le_left _ _
    have := min_le_left maxBackoffC (baseDelayC * 2 ^ n)
    unfold calculateBackoff maxBackoffC at *
    nlinarith [hmin, hj2]
  · intro n j1 j2 hcap _ hj1 hj2 _
    have hpow : (0 : ℚ) < 2 ^ n := by positivity
    have h2 : baseDelayC * 2 ^ (n + 1) = 2 * (baseDelayC * 2 ^ n) := by ring
    have hda : baseDelayC * 2 ^ n ≤ maxBackoffC := by
      unfold baseDelayC maxBackoffC at *
      nlinarith
    have hmn : min maxBackoffC (baseDelayC * 2 ^ n) = baseDelayC * 2 ^ n :=
      min_eq_right hda
    have hmn1 : min maxBackoffC (baseDelayC * 2 ^ (n + 1)) = baseDelayC * 2 ^ (n + 1) :=
      min_eq_right hcap
    unfold calculateBackoff
    rw [hmn, hmn1]
    rw [hmn] at hj1
    unfold baseDelayC at *
    nlinarith

/-- Witness for C4 at `n = 0` with jitter draws `3` and `0`. -/
theorem backoff_bounded_and_monotone_witness :
    calculateBackoff 0 3 ≤ maxBackoffC * (11 / 10) ∧
    calculateBackoff 0 3 ≤ calculateBackoff 1 0 := by
  constructor
  · exact backoff_bounded_and_monotone.1 0 3 (by norm_num)
      (by norm_num [maxBackoffC, baseDelayC])
  · exact backoff_bounded_and_monotone.2 0 3 0
      (by norm_num [maxBackoffC, baseDelayC]) (by norm_num)
      (by norm_num [maxBackoffC, baseDelayC]) (by norm_num)
      (by norm_num [maxBackoffC, baseDelayC])

/-! ## Claim C5: wait before a request -/

/-- C5 counterexample: at retry attempt 1 with zero jitter the engine waits
30 seconds, but the claimed delay `min(max_backoff, base_delay * 2^1)` plus a
nonnegative jitter can never equal 30. -/
theorem wait_attempt_one_counterexample :
    waitWithBackoff 1 0 = some 30 ∧
    ¬ ∃ j : ℚ, 0 ≤ j ∧
      waitWithBackoff 1 0 = some (min maxBackoffC (baseDelayC * 2 ^ (1 : Nat)) + j) := by
  constructor
  · norm_num [waitWithBackoff, calculateBackoff, maxBackoffC, baseDelayC]
  · rintro ⟨j, hj, h⟩
    rw [show min maxBackoffC (baseDelayC * 2 ^ (1 : Nat)) = 60 by
      norm_num [maxBackoffC, baseDelayC]] at h
    rw [show waitWithBackoff 1 0 = some 30 by
      norm_num [waitWithBackoff, calculateBackoff, maxBackoffC, baseDelayC]] at h
    simp only [Option.some.injEq] at h
    linarith

/-- C5 amended: attempt 0 incurs no wait; before retry attempt `n ≥ 1` the
engine waits `min(max_backoff, base_delay * 2^(n-1))` plus the jitter draw
(the code passes `retry_count - 1` to `_calculate_backoff`). -/
theorem wait_with_backoff_delay :
    (∀ j : ℚ, waitWithBackoff 0 j = none) ∧
    (∀ (n : Nat) (j : ℚ), 1 ≤ n →
      waitWithBackoff n j = some (min maxBackoffC (baseDelayC * 2 ^ (n - 1)) + j)) := by
  constructor
  · intro j; simp [waitWithBackoff]
  · intro n j hn
    simp [waitWithBackoff, calculateBackoff, Nat.lt_of_lt_of_le Nat.zero_lt_one hn]

/-- Witness for C5 amended, at attempt 2 with jitter 1. -/
theorem wait_with_backoff_delay_witness :
    waitWithBackoff 0 5 = none ∧
    waitWithBackoff 2 1 = some (min maxBackoffC (baseDelayC * 2 ^ (2 - 1)) + 1) :=
  ⟨wait_with_backoff_delay.1 5, wait_with_backoff_delay.2 2 1 (by norm_num)⟩

/-! ## Claim C1: retry budget and credential rotation in `_make_api_request` -/

/-- C1: on a quota error, when fewer than `max_retries` attempts have been
made (`r + 1 < 5`), the request is retried with the attempt counter
incremented and no quota-exhaustion handling; once the budget is exhausted,
quota-exhaustion handling runs and, if a credential remains, the request is
retried from attempt 0. -/
theorem make_api_request_retry_budget :
    ∀ (st : EngineState) (rest : List ApiOutcome) (r : Nat),
      (r + 1 < maxRetriesC →
        makeApiRequest st (ApiOutcome.resourceExhausted :: rest) r
          = makeApiRequest st rest (r + 1)) ∧
      (maxRetriesC ≤ r + 1 →
        (∀ st2, handleQuotaExhaustion st = Except.ok st2 →
          makeApiRequest st (ApiOutcome.resourceExhausted :: rest) r
            = makeApiRequest st2 rest 0) ∧
        (∀ e, handleQuotaExhaustion st = Except.error e →
          makeApiRequest st (ApiOutcome.resourceExhausted :: rest) r
            = (e.2, rest, ApiResult.fatalAllExhausted))) := by
  intro st rest r
  refine ⟨fun h => ?_, fun h => ⟨fun st2 h2 => ?_, fun e h2 => ?_⟩⟩
  · have : ¬ maxRetriesC - 1 ≤ r := by unfold maxRetriesC at *; omega
    simp [makeApiRequest, this]
  · have : maxRetriesC - 1 ≤ r := by unfold maxRetriesC at *; omega
    simp [makeApiRequest, this, h2]
  · have : maxRetriesC - 1 ≤ r := by unfold maxRetriesC at *; omega
    simp [makeApiRequest, this, h2]

/-- Witness for C1: a retry with incremented counter at `r = 0`, and a
rotation with a fresh budget at `r = 4`. -/
theorem make_api_request_retry_budget_witness :
    makeApiRequest stW [ApiOutcome.resourceExhausted] 0 = makeApiRequest stW [] 1 ∧
    makeApiRequest stW [ApiOutcome.resourceExhausted] 4
      = makeApiRequest ⟨⟨["k1", "k2"], 1, ["k1"]⟩, "k2", 0, 0⟩ [] 0 := by
  refine ⟨(make_api_request_retry_budget stW [] 0).1 (by norm_num [maxRetriesC]), ?_⟩
  exact ((make_api_request_retry_budget stW [] 4).2 (by norm_num [maxRetriesC])).1
    ⟨⟨["k1", "k2"], 1, ["k1"]⟩, "k2", 0, 0⟩ rfl

/-! ## Claim C3: the completion heuristic -/

/-- C3: `_check_near_completion` returns true iff the updated streak is at
least 2 and always records the observed count; from a fresh tracker, two
consecutive identical counts at ≥ 99% return false then true; a call below
99% resets the streak and returns false; a whole sequence of calls below 99%
never returns true. -/
theorem check_near_completion_spec :
    (∀ (st : EngineState) (c t : Nat) (b : Bool) (st2 : EngineState),
      checkNearCompletion st c t = Except.ok (b, st2) →
      (b = true ↔ 2 ≤ st2.nearCount) ∧ st2.lastCount = c) ∧
    (∀ (st : EngineState) (c t : Nat), st.nearCount = 0 → st.lastCount = 0 →
      0 < c → 0 < t → 99 ≤ (c : ℚ) / (t : ℚ) * 100 →
      checkNearCompletion st c t
          = Except.ok (false, { st with nearCount := 1, lastCount := c }) ∧
      checkNearCompletion { st with nearCount := 1, lastCount := c } c t
          = Except.ok (true, { st with nearCount := 2, lastCount := c })) ∧
    (∀ (st : EngineState) (c t : Nat), 0 < t → (c : ℚ) / (t : ℚ) * 100 < 99 →
      checkNearCompletion st c t
          = Except.ok (false, { st with nearCount := 0, lastCount := c })) ∧
    (∀ (st : EngineState) (total : Nat) (calls : List Nat), 0 < total →
      (∀ c ∈ calls, (c : ℚ) / (total : ℚ) * 100 < 99) →
      ∀ b ∈ (runChecks st total calls).1, b = false) := by
  have hreset : ∀ (st : EngineState) (c t : Nat), 0 < t →
      (c : ℚ) / (t : ℚ) * 100 < 99 →
      checkNearCompletion st c t
        = Except.ok (false, { st with nearCount := 0, lastCount := c }) := by
    intro st c t ht hpct
    have ht0 : t ≠ 0 := Nat.pos_iff_ne_zero.mp ht
    simp only [checkNearCompletion, ht0, if_false, ite_false]
    rw [if_neg (by exact not_le.mpr hpct)]
    simp
  refine ⟨?_, ?_, hreset, ?_⟩
  · intro st c t b st2 h
    by_cases ht : t = 0
    · simp [checkNearCompletion, ht] at h
    · simp only [checkNearCompletion, ht, ite_false] at h
      split at h
      · split at h
        all_goals
          simp only [Except.ok.injEq, Prod.mk.injEq] at h
          rcases h with ⟨hb, hst⟩
          subst hb; subst hst
          simp
      · simp only [Except.ok.injEq, Prod.mk.injEq] at h
        rcases h with ⟨hb, hst⟩
        subst hb; subst hst
        simp
  · intro st c t h0 hl hc ht hpct
    have ht0 : t ≠ 0 := Nat.pos_iff_ne_zero.mp ht
    have hcl : ¬ c = st.lastCount := by rw [hl]; exact Nat.pos_iff_ne_zero.mp hc
    constructor
    · simp only [checkNearCompletion, ht0, ite_false]
      rw [if_pos hpct, if_neg hcl]
      simp
    · simp only [checkNearCompletion, ht0, ite_false]
      rw [if_pos hpct]
      simp [h0]
  · intro st total calls htotal
    induction calls generalizing st with
    | nil => intro hcalls b hb; simp [runChecks] at hb
    | cons c cs ih =>
      intro hcalls b hb
      simp only [runChecks, hreset st c total htotal (hcalls c (by simp))] at hb
      rcases List.mem_cons.mp hb with hb | hb
      · exact hb
      · exact ih _ (fun x hx => hcalls x (List.mem_cons_of_mem _ hx)) b hb

/-- Witness for C3: total 100; two calls at 99 blocks (false then true),
then a reset at 50 blocks; a short all-below-99% run stays false. -/
theorem check_near_completion_spec_witness :
    checkNearCompletion stW 99 100
        = Except.ok (false, { stW with nearCount := 1, lastCount := 99 }) ∧
    checkNearCompletion { stW with nearCount := 1, lastCount := 99 } 99 100
        = Except.ok (true, { stW with nearCount := 2, lastCount := 99 }) ∧
    checkNearCompletion stW 50 100
        = Except.ok (false, { stW with nearCount := 0, lastCount := 50 }) ∧
    ∀ b ∈ (runChecks stW 100 [10, 20, 98]).1, b = false := by
  have h99 : (99 : ℚ) ≤ (99 : ℚ) / (100 : ℚ) * 100 := by norm_num
  have hpair := (check_near_completion_spec.2.1) stW 99 100 rfl rfl
    (by norm_num) (by norm_num) h99
  refine ⟨hpair.1, hpair.2, ?_, ?_⟩
  · exact (check_near_completion_spec.2.2.1) stW 50 100 (by norm_num) (by norm_num)
  · refine (check_near_completion_spec.2.2.2) stW 100 [10, 20, 98] (by norm_num) ?_
    intro c hc
    fin_cases hc <;> norm_num

/-! ### Stepping equations for `translateFile` -/

lemma translateFile_loaded {input fs save outcomes cancels st0}
    (h : loadedProgress fs save ≠ []) :
    translateFile input fs save outcomes cancels st0
      = translateLoop st0 (loadedProgress fs save) (count_srt_blocks input) save fs
          outcomes cancels [] [] := by
  rw [translateFile.eq_def]
  simp [h]

lemma translateFile_noOutcomes {input fs save cancels st0}
    (h : loadedProgress fs save = []) :
    translateFile input fs save [] cancels st0
      = ⟨fs, JobResult.pending, [], [], st0⟩ := by
  rw [translateFile.eq_def]
  simp [h]

lemma translateFile_firstResponse {input fs save o rest cancels st0 st1 remaining t}
    (h : loadedProgress fs save = [])
    (hreq : makeApiRequest st0 (o :: rest) 0 = (st1, remaining, ApiResult.response t)) :
    translateFile input fs save (o :: rest) cancels st0
      = translateLoop st1 (extract_srt_blocks t) (count_srt_blocks input) save
          (if save = true then { fs with progress := some (joinSep (extract_srt_blocks t)) }
            else fs)
          remaining cancels
          (if save = true then [joinSep (extract_srt_blocks t)] else []) [] := by
  rw [translateFile.eq_def]
  simp [h, hreq]

lemma translateFile_firstFatal {input fs save o rest cancels st0 st1 remaining}
    (h : loadedProgress fs save = [])
    (hreq : makeApiRequest st0 (o :: rest) 0 = (st1, remaining, ApiResult.fatalAllExhausted)) :
    translateFile input fs save (o :: rest) cancels st0
      = ⟨fs, JobResult.fatalAllExhausted, [], [], st1⟩ := by
  rw [translateFile.eq_def]
  simp [h, hreq]

lemma translateFile_firstRaised {input fs save o rest cancels st0 st1 remaining m}
    (h : loadedProgress fs save = [])
    (hreq : makeApiRequest st0 (o :: rest) 0 = (st1, remaining, ApiResult.raised m)) :
    translateFile input fs save (o :: rest) cancels st0
      = ⟨fs, JobResult.raised m, [], [], st1⟩ := by
  rw [translateFile.eq_def]
  simp [h, hreq]

lemma translateFile_firstPending {input fs save o rest cancels st0 st1 remaining}
    (h : loadedProgress fs save = [])
    (hreq : makeApiRequest st0 (o :: rest) 0 = (st1, remaining, ApiResult.pending)) :
    translateFile input fs save (o :: rest) cancels st0
      = ⟨fs, JobResult.pending, [], [], st1⟩ := by
  rw [translateFile.eq_def]
  simp [h, hreq]

/-! ## Claim C7: cancellation -/

/-- C7: when the cancellation predicate polls true at the top of a
continuation iteration (blocks still missing), the loop returns the
cancelled outcome — no exception — with the filesystem untouched: no final
output write and the progress file exactly as it was. -/
theorem cancellation_preserves_progress :
    ∀ (st : EngineState) (translated : List (List Char)) (total : Nat) (save : Bool)
      (fs : FS) (outcomes : List ApiOutcome) (cancels : List Bool)
      (writes : List (List Char)) (checks : List (Nat × Nat)),
      List.length translated < total → cancels.headD false = true →
      translateLoop st translated total save fs outcomes cancels writes checks
        = ⟨fs, JobResult.cancelled, writes, checks, st⟩ := by
  intro st translated total save fs outcomes cancels writes checks h1 h2
  exact translateLoop_cancelled (not_le.mpr h1) h2

/-- Witness for C7: one missing block, cancel on the first poll; the progress
file survives and no output is written. -/
theorem cancellation_preserves_progress_witness :
    translateLoop stW [] 1 true ⟨some ['p'], none⟩ [] [true] [['p']] []
      = ⟨⟨some ['p'], none⟩, JobResult.cancelled, [['p']], [], stW⟩ :=
  cancellation_preserves_progress stW [] 1 true ⟨some ['p'], none⟩ [] [true] [['p']] []
    (by norm_num) rfl

/-! ## Claim C10: the completion-percentage division -/

/-- C10: every `_check_near_completion` call issued by `translate_file` has
divisor `total_blocks ≥ 1` (the loop guard `len < total` protects the
division); called outside that precondition with a zero total, the division
raises and has no defined result. -/
theorem near_completion_divisor_safe :
    (∀ (input : List Char) (fs : FS) (save : Bool) (outcomes : List ApiOutcome)
        (cancels : List Bool) (st0 : EngineState),
      ∀ p ∈ (translateFile input fs save outcomes cancels st0).checks, 1 ≤ p.2) ∧
    (∀ (st : EngineState) (c : Nat),
      checkNearCompletion st c 0 = Except.error "ZeroDivisionError") := by
  constructor
  · intro input fs save outcomes cancels st0
    by_cases hl : loadedProgress fs save = []
    · cases outcomes with
      | nil =>
        rw [translateFile_noOutcomes hl]
        intro p hp
        simp at hp
      | cons o rest =>
        rcases hreq : makeApiRequest st0 (o :: rest) 0 with ⟨st1, remaining, result⟩
        cases result with
        | response t =>
          rw [translateFile_firstResponse hl hreq]
          exact translateLoop_checks_pos remaining.length remaining le_rfl st1 _ _ save _
            cancels _ [] (by intro p hp; simp at hp)
        | fatalAllExhausted =>
          rw [translateFile_firstFatal hl hreq]
          intro p hp
          simp at hp
        | raised m =>
          rw [translateFile_firstRaised hl hreq]
          intro p hp
          simp at hp
        | pending =>
          rw [translateFile_firstPending hl hreq]
          intro p hp
          simp at hp
    · rw [translateFile_loaded hl]
      exact translateLoop_checks_pos outcomes.length outcomes le_rfl st0 _ _ save _
        cancels _ [] (by intro p hp; simp at hp)
  · intro st c
    rfl

/-- Witness for C10: a one-block input whose first response holds no blocks
drives one loop iteration, so the heuristic is called once, with total 1. -/
theorem near_completion_divisor_safe_witness :
    (0, 1) ∈ (translateFile "1\n00:00:00,000 --> 00:00:01,000\nHi".data ⟨none, none⟩ true
        [ApiOutcome.success []] [] stW).checks ∧
    (1 : Nat) ≤ ((0 : Nat), (1 : Nat)).2 ∧
    checkNearCompletion stW 3 0 = Except.error "ZeroDivisionError" := by
  have hc : (translateFile "1\n00:00:00,000 --> 00:00:01,000\nHi".data ⟨none, none⟩ true
      [ApiOutcome.success []] [] stW).checks = [(0, 1)] := by
    simp [translateFile, translateLoop, makeApiRequest, checkNearCompletion, appendNew,
      count_srt_blocks, countAux, matchBlockHeadLen, matchTimingLen, isD, isPySpace,
      extract_srt_blocks, splitBlank, splitBlankAux, trySep, trySepGo, stripChars,
      matchLeadingIndex, matchIdxGo, joinSep, maxRetriesC, stW, loadedProgress, finishJob]
    norm_num
  refine ⟨by rw [hc]; simp, ?_, near_completion_divisor_safe.2 stW 3⟩
  exact near_completion_divisor_safe.1 "1\n00:00:00,000 --> 00:00:01,000\nHi".data
    ⟨none, none⟩ true [ApiOutcome.success []] [] stW (0, 1) (by rw [hc]; simp)

/-! ## Claim C6: all credentials exhausted -/

/-- C6: quota-exhaustion handling marks the current credential exhausted; if
no credential remains it raises the all-credentials-exhausted error, which
surfaces out of `translate_file` with the progress file still on disk (the
last write, or the initial contents) and no output written; otherwise it
rotates to the next credential and reinitializes the model binding without
raising. -/
theorem all_credentials_exhausted_behavior :
    ∀ st : EngineState,
      (hasAvailableKeys (markKeyExhausted st.rot (getCurrentKey st.rot)) = false →
        handleQuotaExhaustion st = Except.error ("All API keys have been exhausted",
          { st with rot := markKeyExhausted st.rot (getCurrentKey st.rot) })) ∧
      (hasAvailableKeys (markKeyExhausted st.rot (getCurrentKey st.rot)) = true →
        handleQuotaExhaustion st = Except.ok
          { st with
            rot := rotateKey (markKeyExhausted st.rot (getCurrentKey st.rot))
            model := initializeModel (rotateKey (markKeyExhausted st.rot (getCurrentKey st.rot))) }) ∧
      (∀ (input : List Char) (fs : FS) (save : Bool) (outcomes : List ApiOutcome)
          (cancels : List Bool) (st0 : EngineState),
        (translateFile input fs save outcomes cancels st0).res = JobResult.fatalAllExhausted →
        (translateFile input fs save outcomes cancels st0).fs.progress
            = lastWriteOr (translateFile input fs save outcomes cancels st0).writes fs.progress ∧
        (translateFile input fs save outcomes cancels st0).fs.output = fs.output) := by
  intro st
  refine ⟨fun h => ?_, fun h => ?_, ?_⟩
  · simp [handleQuotaExhaustion, h]
  · simp [handleQuotaExhaustion, h]
  · intro input fs save outcomes cancels st0
    by_cases hl : loadedProgress fs save = []
    · cases outcomes with
      | nil =>
        rw [translateFile_noOutcomes hl]
        intro hres
        cases hres
      | cons o rest =>
        rcases hreq : makeApiRequest st0 (o :: rest) 0 with ⟨st1, remaining, result⟩
        cases result with
        | response t =>
          rw [translateFile_firstResponse hl hreq]
          intro hres
          refine translateLoop_preserves remaining.length remaining le_rfl st1 _ _ save _
            cancels _ [] fs.progress fs.output ?_ ?_ (by rw [hres]; simp)
          · by_cases hs : save = true
            · simp [hs, lastWriteOr]
            · simp [hs, lastWriteOr]
          · by_cases hs : save = true
            · simp [hs]
            · simp [hs]
        | fatalAllExhausted =>
          rw [translateFile_firstFatal hl hreq]
          intro _
          exact ⟨rfl, rfl⟩
        | raised m =>
          rw [translateFile_firstRaised hl hreq]
          intro hres
          cases hres
        | pending =>
          rw [translateFile_firstPending hl hreq]
          intro hres
          cases hres
    · rw [translateFile_loaded hl]
      intro hres
      exact translateLoop_preserves outcomes.length outcomes le_rfl st0 _ _ save fs
        cancels [] [] fs.progress fs.output rfl rfl (by rw [hres]; simp)

/-- Witness for C6: a single-credential engine; marking it exhausted leaves
no credential, the error surfaces from `translate_file` after five quota
errors, and the progress file (initially absent, never written) is
untouched; the two-credential engine instead rotates and rebinds. -/
theorem all_credentials_exhausted_behavior_witness :
    handleQuotaExhaustion ⟨⟨["k1"], 0, []⟩, "k1", 0, 0⟩
        = Except.error ("All API keys have been exhausted", ⟨⟨["k1"], 0, ["k1"]⟩, "k1", 0, 0⟩) ∧
    handleQuotaExhaustion stW = Except.ok ⟨⟨["k1", "k2"], 1, ["k1"]⟩, "k2", 0, 0⟩ ∧
    (translateFile ['1'] ⟨none, none⟩ true
          [ApiOutcome.resourceExhausted, ApiOutcome.resourceExhausted,
            ApiOutcome.resourceExhausted, ApiOutcome.resourceExhausted,
            ApiOutcome.resourceExhausted] [] ⟨⟨["k1"], 0, []⟩, "k1", 0, 0⟩).fs.progress
        = lastWriteOr (translateFile ['1'] ⟨none, none⟩ true
            [ApiOutcome.resourceExhausted, ApiOutcome.resourceExhausted,
              ApiOutcome.resourceExhausted, ApiOutcome.resourceExhausted,
              ApiOutcome.resourceExhausted] [] ⟨⟨["k1"], 0, []⟩, "k1", 0, 0⟩).writes
            (none : Option (List Char)) := by
  have hrun : translateFile ['1'] ⟨none, none⟩ true
      [ApiOutcome.resourceExhausted, ApiOutcome.resourceExhausted,
        ApiOutcome.resourceExhausted, ApiOutcome.resourceExhausted,
        ApiOutcome.resourceExhausted] [] ⟨⟨["k1"], 0, []⟩, "k1", 0, 0⟩
      = ⟨⟨none, none⟩, JobResult.fatalAllExhausted, [], [],
          ⟨⟨["k1"], 0, ["k1"]⟩, "k1", 0, 0⟩⟩ :=
    translateFile_firstFatal rfl rfl
  refine ⟨(all_credentials_exhausted_behavior ⟨⟨["k1"], 0, []⟩, "k1", 0, 0⟩).1 rfl,
    (all_credentials_exhausted_behavior stW).2.1 rfl, ?_⟩
  exact ((all_credentials_exhausted_behavior stW).2.2 ['1'] ⟨none, none⟩ true _ []
    ⟨⟨["k1"], 0, []⟩, "k1", 0, 0⟩ (by rw [hrun])).1

/-! ## Splitter invariants, towards the codec claims -/

lemma takeWhile_append_stop {p : Char → Bool} {l t : List Char}
    (h : ∃ c ∈ l, p c = false) : (l ++ t).takeWhile p = l.takeWhile p := by
  induction l with
  | nil =>
    rcases h with ⟨c, hc, _⟩
    cases hc
  | cons a l ih =>
    cases ha : p a with
    | true =>
      simp only [List.cons_append, List.takeWhile_cons, ha, if_pos]
      rcases h with ⟨c, hc, hcp⟩
      rcases List.mem_cons.mp hc with rfl | hc
      · rw [ha] at hcp; cases hcp
      · rw [ih ⟨c, hc, hcp⟩]
    | false =>
      simp [List.takeWhile_cons, ha]

lemma mem_takeWhile_append {p : Char → Bool} {x : Char} {l t : List Char}
    (h : x ∈ l.takeWhile p) : x ∈ (l ++ t).takeWhile p := by
  induction l with
  | nil => cases h
  | cons a l ih =>
    cases ha : p a with
    | true =>
      simp only [List.takeWhile_cons, ha, if_pos] at h
      simp only [List.cons_append, List.takeWhile_cons, ha, if_pos]
      rcases List.mem_cons.mp h with rfl | h
      · exact List.mem_cons_self _ _
      · exact List.mem_cons_of_mem _ (ih h)
    | false =>
      rw [List.takeWhile_cons] at h
      simp [ha] at h

lemma mem_takeWhile_append_singleton {p : Char → Bool} {x c : Char} {l : List Char}
    (h : x ∈ (l ++ [c]).takeWhile p) : x ∈ l.takeWhile p ∨ x = c := by
  induction l with
  | nil =>
    cases hc : p c with
    | true =>
      simp only [List.nil_append, List.takeWhile_cons, hc, if_pos] at h
      rcases List.mem_cons.mp h with rfl | h
      · exact Or.inr rfl
      · cases h
    | false =>
      rw [List.nil_append, List.takeWhile_cons] at h
      simp [hc] at h
  | cons a l ih =>
    cases ha : p a with
    | true =>
      simp only [List.cons_append, List.takeWhile_cons, ha, if_pos] at h
      simp only [List.takeWhile_cons, ha, if_pos]
      rcases List.mem_cons.mp h with rfl | h
      · exact Or.inl (List.mem_cons_self _ _)
      · rcases ih h with h | h
        · exact Or.inl (List.mem_cons_of_mem _ h)
        · exact Or.inr h
    | false =>
      rw [List.cons_append, List.takeWhile_cons] at h
      simp [ha] at h

lemma PpB_cons {c : Char} {r : List Char} :
    PpB (c :: r)
      = ((if c = '\n' then !(decide ('\n' ∈ r.takeWhile isPySpace)) else true) && PpB r) := rfl

lemma WtB_cons {c : Char} {r : List Char} :
    WtB (c :: r) = ((if c = '\n' then hasNonWs r else true) && WtB r) := rfl

lemma PpB_append_right {a b : List Char} (h : PpB (a ++ b) = true) : PpB a = true := by
  induction a with
  | nil => rfl
  | cons c a ih =>
    rw [List.cons_append, PpB_cons, Bool.and_eq_true] at h
    rw [PpB_cons, Bool.and_eq_true]
    refine ⟨?_, ih h.2⟩
    by_cases hc : c = '\n'
    · rw [if_pos hc] at *
      rcases h with ⟨h1, _⟩
      simp only [Bool.not_eq_true', decide_eq_false_iff_not] at h1 ⊢
      exact fun hm => h1 (mem_takeWhile_append hm)
    · rw [if_neg hc]

lemma PpB_append_left {a b : List Char} (h : PpB (a ++ b) = true) : PpB b = true := by
  induction a with
  | nil => exact h
  | cons c a ih =>
    rw [List.cons_append, PpB_cons, Bool.and_eq_true] at h
    exact ih h.2

lemma hasNonWs_exists {l : List Char} (h : hasNonWs l = true) :
    ∃ d ∈ l, isPySpace d = false := by
  rcases List.any_eq_true.mp h with ⟨d, hd, hdp⟩
  exact ⟨d, hd, by simpa using hdp⟩

lemma hasNonWs_append_left {a b : List Char} (h : hasNonWs a = true) :
    hasNonWs (a ++ b) = true := by
  rcases List.any_eq_true.mp h with ⟨d, hd, hdp⟩
  exact List.any_eq_true.mpr ⟨d, List.mem_append_left _ hd, hdp⟩

lemma hasNonWs_append_singleton {l : List Char} {c : Char} (hc : isPySpace c = false) :
    hasNonWs (l ++ [c]) = true := by
  refine List.any_eq_true.mpr ⟨c, List.mem_append_right _ (List.mem_singleton_self _), ?_⟩
  simp [hc]

lemma isPySpace_nl : isPySpace '\n' = true := rfl

lemma PpB_snoc_not_nl {acc : List Char} {c : Char}
    (hp : PpB acc = true) (hc : c ≠ '\n') : PpB (acc ++ [c]) = true := by
  induction acc with
  | nil =>
    rw [List.nil_append, PpB_cons, Bool.and_eq_true]
    exact ⟨by rw [if_neg hc], rfl⟩
  | cons a acc ih =>
    rw [PpB_cons, Bool.and_eq_true] at hp
    rw [List.cons_append, PpB_cons, Bool.and_eq_true]
    refine ⟨?_, ih hp.2⟩
    by_cases ha : a = '\n'
    · rw [if_pos ha]
      have h1 := hp.1
      rw [if_pos ha] at h1
      simp only [Bool.not_eq_true', decide_eq_false_iff_not] at h1 ⊢
      intro hm
      rcases mem_takeWhile_append_singleton hm with hm | hm
      · exact h1 hm
      · exact hc hm.symm
    · rw [if_neg ha]

lemma PpB_snoc_nl {acc : List Char}
    (hp : PpB acc = true) (hw : WtB acc = true) : PpB (acc ++ ['\n']) = true := by
  induction acc with
  | nil => rfl
  | cons a acc ih =>
    rw [PpB_cons, Bool.and_eq_true] at hp
    rw [WtB_cons, Bool.and_eq_true] at hw
    rw [List.cons_append, PpB_cons, Bool.and_eq_true]
    refine ⟨?_, ih hp.2 hw.2⟩
    by_cases ha : a = '\n'
    · rw [if_pos ha]
      have h1 := hp.1
      have w1 := hw.1
      rw [if_pos ha] at h1 w1
      simp only [Bool.not_eq_true', decide_eq_false_iff_not] at h1 ⊢
      rw [takeWhile_append_stop (hasNonWs_exists w1)]
      exact h1
    · rw [if_neg ha]

lemma WtB_snoc_not_nl {acc : List Char} {c : Char}
    (hw : WtB acc = true) (hc : c ≠ '\n') : WtB (acc ++ [c]) = true := by
  induction acc with
  | nil =>
    rw [List.nil_append, WtB_cons, Bool.and_eq_true]
    exact ⟨by rw [if_neg hc], rfl⟩
  | cons a acc ih =>
    rw [WtB_cons, Bool.and_eq_true] at hw
    rw [List.cons_append, WtB_cons, Bool.and_eq_true]
    refine ⟨?_, ih hw.2⟩
    by_cases ha : a = '\n'
    · rw [if_pos ha]
      have w1 := hw.1
      rw [if_pos ha] at w1
      exact hasNonWs_append_left w1
    · rw [if_neg ha]

lemma WtB_snoc_nonws {c : Char} (hc : isPySpace c = false) :
    ∀ acc : List Char, WtB (acc ++ [c]) = true := by
  have hcnl : c ≠ '\n' := by
    intro h
    rw [h, isPySpace_nl] at hc
    cases hc
  intro acc
  induction acc with
  | nil =>
    rw [List.nil_append, WtB_cons, Bool.and_eq_true]
    exact ⟨by rw [if_neg hcnl], rfl⟩
  | cons a acc ih =>
    rw [List.cons_append, WtB_cons, Bool.and_eq_true]
    refine ⟨?_, ih⟩
    by_cases ha : a = '\n'
    · rw [if_pos ha]
      exact hasNonWs_append_singleton hc
    · rw [if_neg ha]

lemma trySepGo_some_ne_none :
    ∀ (l : List Char) (b : List Char), trySepGo l (some b) ≠ none := by
  intro l
  induction l with
  | nil => intro b h; cases h
  | cons c r ih =>
    intro b
    by_cases hc : c = '\n'
    · simp only [trySepGo, hc, if_pos]
      exact ih r
    · by_cases hw : isPySpace c
      · simp only [trySepGo, hc, hw, ite_false, ite_true]
        exact ih b
      · simp only [trySepGo, hc, hw, ite_false]
        intro h; cases h

lemma trySep_none_iff {l : List Char} :
    trySep l = none ↔ '\n' ∉ l.takeWhile isPySpace := by
  induction l with
  | nil => simp [trySep, trySepGo]
  | cons c r ih =>
    by_cases hc : c = '\n'
    · subst hc
      constructor
      · intro h
        exact absurd h (trySepGo_some_ne_none r r)
      · intro h
        exfalso
        apply h
        rw [List.takeWhile_cons, if_pos (by rw [isPySpace_nl])]
        exact List.mem_cons_self _ _
    · by_cases hw : isPySpace c = true
      · rw [show trySep (c :: r) = trySep r by
          simp only [trySep, trySepGo, hc, hw, ite_false, ite_true]]
        rw [List.takeWhile_cons, if_pos hw]
        rw [ih]
        constructor
        · intro h hm
          rcases List.mem_cons.mp hm with hm | hm
          · exact hc hm.symm
          · exact h hm
        · intro h hm
          exact h (List.mem_cons_of_mem _ hm)
      · constructor
        · intro _
          rw [List.takeWhile_cons, if_neg hw]
          simp
        · intro _
          simp [trySep, trySepGo, hc, hw]

lemma trySep_cons_junction {m : List Char}
    (h : m = [] ∨ ∃ c r, m = c :: r ∧ isPySpace c = false) :
    trySep ('\n' :: m) = some m := by
  have h0 : trySep ('\n' :: m) = trySepGo m (some m) := by
    simp [trySep, trySepGo]
  rw [h0]
  rcases h with rfl | ⟨c, r, rfl, hc⟩
  · rfl
  · have hcnl : ¬ c = '\n' := by
      intro h
      rw [h, isPySpace_nl] at hc
      cases hc
    simp [trySepGo, hcnl, hc]

lemma trySep_append_none {y rest : List Char}
    (h1 : '\n' ∉ y.takeWhile isPySpace) (h2 : ∃ d ∈ y, isPySpace d = false) :
    trySep (y ++ rest) = none := by
  rw [trySep_none_iff, takeWhile_append_stop h2]
  exact h1

/-! ### Stepping equations for `splitBlankAux` -/

lemma splitBlankAux_nil {acc : List Char} : splitBlankAux [] acc = [acc] := by
  rw [splitBlankAux]

lemma splitBlankAux_cons {c : Char} {rest acc : List Char} (hc : c ≠ '\n') :
    splitBlankAux (c :: rest) acc = splitBlankAux rest (acc ++ [c]) := by
  rw [splitBlankAux]
  simp [hc]

lemma splitBlankAux_nl_none {rest acc : List Char} (h : trySep rest = none) :
    splitBlankAux ('\n' :: rest) acc = splitBlankAux rest (acc ++ ['\n']) := by
  rw [splitBlankAux]
  rw [if_pos rfl]
  split
  · rename_i r2 heq
    rw [h] at heq
    cases heq
  · rfl

lemma splitBlankAux_nl_some {rest rest2 acc : List Char} (h : trySep rest = some rest2) :
    splitBlankAux ('\n' :: rest) acc = acc :: splitBlankAux rest2 [] := by
  rw [splitBlankAux]
  rw [if_pos rfl]
  split
  · rename_i r2 heq
    rw [h] at heq
    cases heq
    rfl
  · rename_i heq
    rw [h] at heq
    cases heq

/-- Every segment produced by the splitter satisfies the no-blank-inside
invariant `PpB`. -/
lemma splitBlankAux_Pp :
    ∀ (N : Nat) (l : List Char), l.length ≤ N → ∀ acc, PpB acc = true →
      (WtB acc = true ∨ '\n' ∉ l.takeWhile isPySpace) →
      ∀ s ∈ splitBlankAux l acc, PpB s = true := by
  intro N
  induction N using Nat.strong_induction_on with
  | _ N ih =>
    intro l hlen acc hp hinv
    cases l with
    | nil =>
      rw [splitBlankAux_nil]
      intro s hs
      rw [List.mem_singleton] at hs
      subst hs
      exact hp
    | cons c rest =>
      rw [List.length_cons] at hlen
      by_cases hc : c = '\n'
      · subst hc
        have hwt : WtB acc = true := by
          rcases hinv with h | h
          · exact h
          · exfalso
            apply h
            rw [List.takeWhile_cons, if_pos isPySpace_nl]
            exact List.mem_cons_self _ _
        cases htry : trySep rest with
        | none =>
          rw [splitBlankAux_nl_none htry]
          exact ih rest.length (by omega) rest le_rfl (acc ++ ['\n'])
            (PpB_snoc_nl hp hwt) (Or.inr (trySep_none_iff.mp htry))
        | some rest2 =>
          rw [splitBlankAux_nl_some htry]
          intro s hs
          rcases List.mem_cons.mp hs with rfl | hs
          · exact hp
          · have hr2 : rest2.length ≤ rest.length := trySep_length htry
            exact ih rest2.length (by omega) rest2 le_rfl [] rfl (Or.inl rfl) s hs
      · rw [splitBlankAux_cons hc]
        have hp2 : PpB (acc ++ [c]) = true := PpB_snoc_not_nl hp hc
        have hinv2 : WtB (acc ++ [c]) = true ∨ '\n' ∉ rest.takeWhile isPySpace := by
          by_cases hw : isPySpace c = true
          · rcases hinv with h | h
            · exact Or.inl (WtB_snoc_not_nl h hc)
            · refine Or.inr (fun hm => h ?_)
              rw [List.takeWhile_cons, if_pos hw]
              exact List.mem_cons_of_mem _ hm
          · exact Or.inl (WtB_snoc_nonws (by simpa using hw) acc)
        exact ih rest.length (by omega) rest le_rfl (acc ++ [c]) hp2 hinv2

/-- A segment with no blank separator inside and a non-whitespace character
after every newline passes through the splitter untouched, for any
continuation. -/
lemma blockPass :
    ∀ (b : List Char), PpB b = true → WtB b = true →
      ∀ (acc rest : List Char),
        splitBlankAux (b ++ rest) acc = splitBlankAux rest (acc ++ b) := by
  intro b
  induction b with
  | nil =>
    intro _ _ acc rest
    simp
  | cons c b ih =>
    intro hp hw acc rest
    rw [PpB_cons, Bool.and_eq_true] at hp
    rw [WtB_cons, Bool.and_eq_true] at hw
    by_cases hc : c = '\n'
    · subst hc
      have h1 := hp.1
      rw [if_pos rfl] at h1
      have w1 := hw.1
      rw [if_pos rfl] at w1
      simp only [Bool.not_eq_true', decide_eq_false_iff_not] at h1
      rw [List.cons_append,
        splitBlankAux_nl_none (trySep_append_none h1 (hasNonWs_exists w1)),
        ih hp.2 hw.2 (acc ++ ['\n']) rest]
      congr 1
      simp
    · rw [List.cons_append, splitBlankAux_cons hc, ih hp.2 hw.2 (acc ++ [c]) rest]
      congr 1
      simp

lemma joinSep_cons_cons {b b2 : List Char} {bs : List (List Char)} :
    joinSep (b :: b2 :: bs) = b ++ '\n' :: '\n' :: joinSep (b2 :: bs) := rfl

lemma joinSep_head_decomp {b2 : List Char} (bs : List (List Char)) :
    ∃ r, joinSep (b2 :: bs) = b2 ++ r := by
  cases bs with
  | nil => exact ⟨[], by simp [joinSep]⟩
  | cons b3 bs => exact ⟨'\n' :: '\n' :: joinSep (b3 :: bs), rfl⟩

/-- Splitting the double-newline join of clean stripped segments separates
them exactly. -/
lemma splitBlankAux_joinSep :
    ∀ (bs : List (List Char)) (b : List Char),
      (∀ x ∈ b :: bs, x ≠ [] ∧ PpB x = true ∧ WtB x = true ∧
        (∀ c, x.head? = some c → isPySpace c = false)) →
      ∀ acc, splitBlankAux (joinSep (b :: bs)) acc = (acc ++ b) :: bs := by
  intro bs
  induction bs with
  | nil =>
    intro b hx acc
    have hb := hx b (List.mem_cons_self _ _)
    calc splitBlankAux (joinSep [b]) acc
        = splitBlankAux (b ++ []) acc := by rw [List.append_nil]; rfl
      _ = splitBlankAux [] (acc ++ b) := blockPass b hb.2.1 hb.2.2.1 acc []
      _ = [acc ++ b] := splitBlankAux_nil
  | cons b2 bs ih =>
    intro b hx acc
    have hb := hx b (List.mem_cons_self _ _)
    have hb2 := hx b2 (by simp)
    have hjunction : trySep ('\n' :: joinSep (b2 :: bs)) = some (joinSep (b2 :: bs)) := by
      apply trySep_cons_junction
      rcases @joinSep_head_decomp b2 bs with ⟨r, hr⟩
      rcases hb2 with ⟨hb2ne, _, _, hb2hd⟩
      cases hcb2 : b2 with
      | nil => exact absurd hcb2 hb2ne
      | cons c b2t =>
        refine Or.inr ⟨c, b2t ++ r, ?_, ?_⟩
        · rw [hcb2] at hr
          rw [hr, List.cons_append]
        · exact hb2hd c (by rw [hcb2]; rfl)
    rw [joinSep_cons_cons, blockPass b hb.2.1 hb.2.2.1 acc _,
      splitBlankAux_nl_some hjunction,
      ih b2 (fun x hxm => hx x (List.mem_cons_of_mem _ hxm)) []]
    rw [List.nil_append]

/-! ### Stripped segments are clean -/

lemma dropWhile_head?_false {p : Char → Bool} :
    ∀ {l : List Char} {c : Char}, (l.dropWhile p).head? = some c → p c = false := by
  intro l
  induction l with
  | nil => intro c h; cases h
  | cons a r ih =>
    intro c h
    rw [List.dropWhile_cons] at h
    by_cases ha : p a = true
    · rw [if_pos ha] at h
      exact ih h
    · rw [if_neg ha] at h
      rw [List.head?_cons, Option.some.injEq] at h
      subst h
      exact Bool.not_eq_true _ ▸ ha

lemma stripChars_getLast?_nonWs {s : List Char} {c : Char}
    (h : (stripChars s).getLast? = some c) : isPySpace c = false := by
  unfold stripChars at h
  rw [List.getLast?_reverse] at h
  exact dropWhile_head?_false h

lemma stripChars_head?_nonWs {s : List Char} {c : Char}
    (h : (stripChars s).head? = some c) : isPySpace c = false := by
  unfold stripChars at h
  rw [List.head?_reverse] at h
  set A := s.dropWhile isPySpace with hA
  set B := A.reverse.dropWhile isPySpace with hB
  have hBne : B ≠ [] := by
    intro h0
    rw [h0] at h
    cases h
  have h2 : (A.reverse).getLast? = some c := by
    rw [← List.takeWhile_append_dropWhile isPySpace A.reverse,
      List.getLast?_append_of_ne_nil _ hBne]
    exact h
  rw [List.getLast?_reverse] at h2
  exact dropWhile_head?_false h2

lemma stripChars_eq_self_of_ends {l : List Char}
    (h1 : ∀ c, l.head? = some c → isPySpace c = false)
    (h2 : ∀ c, l.getLast? = some c → isPySpace c = false) : stripChars l = l := by
  have hd : l.dropWhile isPySpace = l := by
    cases hl : l with
    | nil => rfl
    | cons a r =>
      have := h1 a (by rw [hl]; rfl)
      rw [List.dropWhile_cons, if_neg (by simp [this])]
  have hrev : l.reverse.dropWhile isPySpace = l.reverse := by
    cases hl : l.reverse with
    | nil => rfl
    | cons a r =>
      have ha : l.getLast? = some a := by
        rw [← List.head?_reverse, hl]
        rfl
      have := h2 a ha
      rw [List.dropWhile_cons, if_neg (by simp [this])]
  unfold stripChars
  rw [hd, hrev, List.reverse_reverse]

lemma stripChars_idem (l : List Char) : stripChars (stripChars l) = stripChars l :=
  stripChars_eq_self_of_ends (fun _ h => stripChars_head?_nonWs h)
    (fun _ h => stripChars_getLast?_nonWs h)

lemma getLast?_mem : ∀ {l : List Char} {d : Char}, l.getLast? = some d → d ∈ l := by
  intro l
  induction l with
  | nil => intro d h; cases h
  | cons a r ih =>
    intro d h
    cases r with
    | nil =>
      rw [List.getLast?_singleton, Option.some.injEq] at h
      subst h
      exact List.mem_singleton_self _
    | cons b r2 =>
      rw [List.getLast?_cons_cons] at h
      exact List.mem_cons_of_mem _ (ih h)

lemma WtB_of_getLast :
    ∀ {l : List Char}, (∀ c, l.getLast? = some c → isPySpace c = false) → WtB l = true := by
  intro l
  induction l with
  | nil => intro _; rfl
  | cons a r ih =>
    intro h
    rw [WtB_cons, Bool.and_eq_true]
    cases r with
    | nil =>
      refine ⟨?_, rfl⟩
      by_cases ha : a = '\n'
      · subst ha
        have := h '\n' (by rw [List.getLast?_singleton])
        rw [isPySpace_nl] at this
        cases this
      · rw [if_neg ha]
    | cons b r2 =>
      have htail : ∀ c, (b :: r2).getLast? = some c → isPySpace c = false := by
        intro c hc
        exact h c (by rw [List.getLast?_cons_cons]; exact hc)
      refine ⟨?_, ih htail⟩
      by_cases ha : a = '\n'
      · rw [if_pos ha]
        cases hgl : (b :: r2).getLast? with
        | none => simp at hgl
        | some d =>
          exact List.any_eq_true.mpr ⟨d, getLast?_mem hgl, by simp [htail d hgl]⟩
      · rw [if_neg ha]

lemma stripChars_infix (l : List Char) : ∃ u v, l = u ++ stripChars l ++ v := by
  refine ⟨l.takeWhile isPySpace, ((l.dropWhile isPySpace).reverse.takeWhile isPySpace).reverse, ?_⟩
  set A := l.dropWhile isPySpace with hA
  have h1 : l = l.takeWhile isPySpace ++ A := (List.takeWhile_append_dropWhile _ _).symm
  have h2 : A = stripChars l ++ (A.reverse.takeWhile isPySpace).reverse := by
    have h3 : A.reverse = A.reverse.takeWhile isPySpace ++ A.reverse.dropWhile isPySpace :=
      (List.takeWhile_append_dropWhile _ _).symm
    have h4 := congrArg List.reverse h3
    rw [List.reverse_reverse, List.reverse_append] at h4
    exact h4
  rw [List.append_assoc, ← h2]
  exact h1

/-- Every block returned by `extract_srt_blocks` is nonempty, stripped,
blank-separator-free, keeps a non-whitespace character after every newline,
matches the leading-index pattern, and starts with a non-whitespace
character. -/
lemma extract_mem_clean {content b : List Char} (hb : b ∈ extract_srt_blocks content) :
    b ≠ [] ∧ stripChars b = b ∧ PpB b = true ∧ WtB b = true ∧
      matchLeadingIndex b = true ∧ (∀ c, b.head? = some c → isPySpace c = false) := by
  unfold extract_srt_blocks at hb
  rcases List.mem_filter.mp hb with ⟨hb1, hmatch⟩
  rcases List.mem_filter.mp hb1 with ⟨hb2, hne⟩
  rcases List.mem_map.mp hb2 with ⟨s, hs, rfl⟩
  have hPs : PpB s = true := by
    refine splitBlankAux_Pp content.length content le_rfl [] rfl (Or.inl rfl) s ?_
    exact hs
  have hPb : PpB (stripChars s) = true := by
    rcases stripChars_infix s with ⟨u, v, huv⟩
    rw [huv, List.append_assoc] at hPs
    exact PpB_append_right (PpB_append_left hPs)
  refine ⟨by simpa using hne, stripChars_idem s, hPb, ?_, hmatch, ?_⟩
  · exact WtB_of_getLast (fun c hc => stripChars_getLast?_nonWs hc)
  · exact fun c hc => stripChars_head?_nonWs hc

lemma map_stripChars_self {bs : List (List Char)}
    (h : ∀ b ∈ bs, stripChars b = b) : bs.map stripChars = bs := by
  induction bs with
  | nil => rfl
  | cons b bs ih =>
    rw [List.map_cons, h b (List.mem_cons_self _ _),
      ih (fun x hx => h x (List.mem_cons_of_mem _ hx))]

lemma extract_empty : extract_srt_blocks [] = [] := by
  unfold extract_srt_blocks splitBlank
  rw [splitBlankAux_nil]
  rfl

/-- Extracting back the double-newline join of clean extracted blocks gives
exactly those blocks. -/
lemma extract_joinSep {bs : List (List Char)}
    (h : ∀ b ∈ bs, b ≠ [] ∧ stripChars b = b ∧ PpB b = true ∧ WtB b = true ∧
      matchLeadingIndex b = true ∧ (∀ c, b.head? = some c → isPySpace c = false)) :
    extract_srt_blocks (joinSep bs) = bs := by
  cases bs with
  | nil => exact extract_empty
  | cons b bs =>
    have hsplit : splitBlank (joinSep (b :: bs)) = b :: bs := by
      unfold splitBlank
      rw [splitBlankAux_joinSep bs b
        (fun x hx => ⟨(h x hx).1, (h x hx).2.2.1, (h x hx).2.2.2.1, (h x hx).2.2.2.2.2⟩) []]
      rw [List.nil_append]
    have hf1 : List.filter (fun x => decide (x ≠ [])) (b :: bs) = b :: bs :=
      List.filter_eq_self.mpr (fun x hx => by simpa using (h x hx).1)
    have hf2 : List.filter matchLeadingIndex (b :: bs) = b :: bs :=
      List.filter_eq_self.mpr (fun x hx => (h x hx).2.2.2.2.1)
    unfold extract_srt_blocks
    rw [hsplit, map_stripChars_self (fun x hx => (h x hx).2.1), hf1, hf2]

/-! ## Claim C8: extract / serialize round trip -/

/-- C8: for every input text, extracting blocks, joining them with a blank
line, and extracting again returns exactly the same ordered block sequence. -/
theorem extract_serialize_roundtrip :
    ∀ content : List Char,
      extract_srt_blocks (joinSep (extract_srt_blocks content))
        = extract_srt_blocks content :=
  fun _ => extract_joinSep (fun _ hb => extract_mem_clean hb)

/-! ## Claim C2: progress-file size -/

/-- The cleanliness package every extracted block enjoys. -/
def cleanBlockP (b : List Char) : Prop :=
  b ≠ [] ∧ stripChars b = b ∧ PpB b = true ∧ WtB b = true ∧
    matchLeadingIndex b = true ∧ (∀ c, b.head? = some c → isPySpace c = false)

lemma extract_mem_cleanP {content b : List Char} (hb : b ∈ extract_srt_blocks content) :
    cleanBlockP b := extract_mem_clean hb

lemma extract_joinSep_of_cleanP {bs : List (List Char)} (h : ∀ b ∈ bs, cleanBlockP b) :
    extract_srt_blocks (joinSep bs) = bs := extract_joinSep h

lemma appendNew_mem :
    ∀ (new acc : List (List Char)) (x : List Char),
      x ∈ appendNew acc new → x ∈ acc ∨ x ∈ new := by
  intro new
  induction new with
  | nil => intro acc x h; exact Or.inl h
  | cons n new ih =>
    intro acc x h
    rw [show appendNew acc (n :: new)
        = appendNew (if n ∈ acc then acc else acc ++ [n]) new from rfl] at h
    rcases ih _ x h with h1 | h1
    · by_cases hn : n ∈ acc
      · rw [if_pos hn] at h1
        exact Or.inl h1
      · rw [if_neg hn] at h1
        rcases List.mem_append.mp h1 with h2 | h2
        · exact Or.inl h2
        · rw [List.mem_singleton] at h2
          exact Or.inr (h2 ▸ List.mem_cons_self _ _)
    · exact Or.inr (List.mem_cons_of_mem _ h1)

lemma mem_of_dropLast_or_getLast {α : Type} {l : List α} {x : α} (h : x ∈ l) :
    x ∈ l.dropLast ∨ l.getLast? = some x := by
  induction l with
  | nil => cases h
  | cons a l ih =>
    cases l with
    | nil =>
      rw [List.mem_singleton] at h
      subst h
      exact Or.inr rfl
    | cons b l2 =>
      rcases List.mem_cons.mp h with rfl | h
      · exact Or.inl (List.mem_cons_self _ _)
      · rcases ih h with h1 | h1
        · exact Or.inl (List.mem_cons_of_mem _ h1)
        · rw [List.getLast?_cons_cons]
          exact Or.inr h1

/-- In the continuation loop, every progress write other than the last parses
back to fewer blocks than `total_blocks`: each write records the accumulated
blocks, and a non-final write's accumulation passed the `len < total` guard
on the following iteration. -/
lemma translateLoop_writes_bound :
    ∀ (N : Nat) (outcomes : List ApiOutcome), outcomes.length ≤ N →
    ∀ (st : EngineState) (translated : List (List Char)) (total : Nat) (save : Bool)
      (fs : FS) (cancels : List Bool) (writes : List (List Char)) (checks : List (Nat × Nat)),
      (∀ b ∈ translated, cleanBlockP b) →
      (∀ w ∈ writes.dropLast, (extract_srt_blocks w).length < total) →
      (writes = [] ∨ (save = true ∧ writes.getLast? = some (joinSep translated))) →
      ∀ w ∈ (translateLoop st translated total save fs outcomes cancels writes checks).writes.dropLast,
        (extract_srt_blocks w).length < total := by
  intro N
  induction N using Nat.strong_induction_on with
  | _ N ih =>
    intro outcomes hlen st translated total save fs cancels writes checks hclean hbound hlast
    by_cases hdone : total ≤ translated.length
    · rw [translateLoop_done hdone]
      exact hbound
    · cases hcan : cancels.headD false with
      | true =>
        rw [translateLoop_cancelled hdone hcan]
        exact hbound
      | false =>
        cases hchk : checkNearCompletion st translated.length total with
        | error m =>
          rw [translateLoop_checkErr hdone hcan hchk]
          exact hbound
        | ok pr =>
          rcases pr with ⟨stop, st1⟩
          cases stop with
          | true =>
            rw [translateLoop_stop hdone hcan hchk]
            exact hbound
          | false =>
            cases outcomes with
            | nil =>
              rw [translateLoop_nilOutcomes hdone hcan hchk]
              exact hbound
            | cons o rest =>
              rcases hreq : makeApiRequest st1 (o :: rest) 0 with ⟨st2, remaining, result⟩
              have hlt : remaining.length < N := by
                have h0 := makeApiRequest_remaining_lt (o :: rest) st1 0 (by simp)
                rw [hreq] at h0
                exact Nat.lt_of_lt_of_le h0 hlen
              cases result with
              | response t =>
                rw [translateLoop_response hdone hcan hchk hreq]
                have hclean1 : ∀ b ∈ appendNew translated (extract_srt_blocks t), cleanBlockP b := by
                  intro b hb
                  rcases appendNew_mem _ _ _ hb with hb1 | hb1
                  · exact hclean b hb1
                  · exact extract_mem_cleanP hb1
                by_cases hs : save = true
                · simp only [if_pos hs]
                  refine ih remaining.length hlt remaining le_rfl st2 _ total save _
                    cancels.tail _ _ hclean1 ?_ ?_
                  · rw [List.dropLast_concat]
                    intro w hw
                    rcases mem_of_dropLast_or_getLast hw with hw1 | hw1
                    · exact hbound w hw1
                    · have hwj : w = joinSep translated := by
                        rcases hlast with h0 | ⟨_, h0⟩
                        · rw [h0] at hw1; cases hw1
                        · rw [h0, Option.some.injEq] at hw1
                          exact hw1.symm
                      rw [hwj, extract_joinSep_of_cleanP hclean]
                      omega
                  · exact Or.inr ⟨hs, List.getLast?_concat _⟩
                · simp only [if_neg hs]
                  refine ih remaining.length hlt remaining le_rfl st2 _ total save _
                    cancels.tail _ _ hclean1 hbound ?_
                  rcases hlast with h0 | ⟨hs2, _⟩
                  · exact Or.inl h0
                  · exact absurd hs2 hs
              | fatalAllExhausted =>
                rw [translateLoop_fatal hdone hcan hchk hreq]
                exact hbound
              | raised m =>
                rw [translateLoop_raisedStep hdone hcan hchk hreq]
                exact hbound
              | pending =>
                rw [translateLoop_pendingStep hdone hcan hchk hreq]
                exact hbound

lemma loadedProgress_clean {fs : FS} {save : Bool} :
    ∀ b ∈ loadedProgress fs save, cleanBlockP b := by
  intro b hb
  cases hfs : fs.progress with
  | none =>
    have h0 : loadedProgress fs save = [] := by
      unfold loadedProgress
      rw [hfs]
    rw [h0] at hb
    cases hb
  | some pc =>
    have h0 : loadedProgress fs save
        = if save = true then extract_srt_blocks pc else [] := by
      unfold loadedProgress
      rw [hfs]
    rw [h0] at hb
    by_cases hs : save = true
    · rw [if_pos hs] at hb
      exact extract_mem_cleanP hb
    · rw [if_neg hs] at hb
      cases hb

/-- C2 counterexample: a one-block input whose first response carries two
well-formed blocks produces a progress write that parses back to two blocks,
exceeding the expected total of one. -/
theorem progress_overflow_counterexample :
    count_srt_blocks "1\n00:00:00,000 --> 00:00:01,000\nHello".data = 1 ∧
    (translateFile "1\n00:00:00,000 --> 00:00:01,000\nHello".data ⟨none, none⟩ true
        [ApiOutcome.success
          "1\n00:00:00,000 --> 00:00:01,000\nOla\n\n2\n00:00:01,000 --> 00:00:02,000\nMundo".data]
        [] stW).writes
      = ["1\n00:00:00,000 --> 00:00:01,000\nOla\n\n2\n00:00:01,000 --> 00:00:02,000\nMundo".data] ∧
    (extract_srt_blocks
        "1\n00:00:00,000 --> 00:00:01,000\nOla\n\n2\n00:00:01,000 --> 00:00:02,000\nMundo".data).length
      = 2 ∧
    ¬ ((extract_srt_blocks
          "1\n00:00:00,000 --> 00:00:01,000\nOla\n\n2\n00:00:01,000 --> 00:00:02,000\nMundo".data).length
        ≤ count_srt_blocks "1\n00:00:00,000 --> 00:00:01,000\nHello".data) := by
  refine ⟨?_, ?_, ?_, ?_⟩
  · simp [count_srt_blocks, countAux, matchBlockHeadLen, matchTimingLen, isD, isPySpace]
  · simp [translateFile, translateLoop, makeApiRequest, checkNearCompletion, appendNew,
      count_srt_blocks, countAux, matchBlockHeadLen, matchTimingLen, isD, isPySpace,
      extract_srt_blocks, splitBlank, splitBlankAux, trySep, trySepGo, stripChars,
      matchLeadingIndex, matchIdxGo, joinSep, maxRetriesC, stW, loadedProgress, finishJob]
  · simp [extract_srt_blocks, splitBlank, splitBlankAux, trySep, trySepGo, stripChars,
      matchLeadingIndex, matchIdxGo, isD, isPySpace]
  · simp only [not_le]
    have h1 : count_srt_blocks "1\n00:00:00,000 --> 00:00:01,000\nHello".data = 1 := by
      simp [count_srt_blocks, countAux, matchBlockHeadLen, matchTimingLen, isD, isPySpace]
    have h2 : (extract_srt_blocks
        "1\n00:00:00,000 --> 00:00:01,000\nOla\n\n2\n00:00:01,000 --> 00:00:02,000\nMundo".data).length
        = 2 := by
      simp [extract_srt_blocks, splitBlank, splitBlankAux, trySep, trySepGo, stripChars,
        matchLeadingIndex, matchIdxGo, isD, isPySpace]
    rw [h1, h2]
    norm_num

/-- C2 amended: every progress write except possibly the final one, parsed
back with `extract_srt_blocks`, yields strictly fewer blocks than the
expected total (so at most `total_blocks`); only the final write can exceed
the total, when a response carries more blocks than expected. -/
theorem progress_writes_bounded :
    ∀ (input : List Char) (fs : FS) (save : Bool) (outcomes : List ApiOutcome)
      (cancels : List Bool) (st0 : EngineState),
      ∀ w ∈ (translateFile input fs save outcomes cancels st0).writes.dropLast,
        (extract_srt_blocks w).length < count_srt_blocks input := by
  intro input fs save outcomes cancels st0
  by_cases hl : loadedProgress fs save = []
  · cases outcomes with
    | nil =>
      rw [translateFile_noOutcomes hl]
      intro w hw
      simp at hw
    | cons o rest =>
      rcases hreq : makeApiRequest st0 (o :: rest) 0 with ⟨st1, remaining, result⟩
      cases result with
      | response t =>
        rw [translateFile_firstResponse hl hreq]
        by_cases hs : save = true
        · simp only [if_pos hs]
          refine translateLoop_writes_bound remaining.length remaining le_rfl st1 _ _ save _
            cancels _ [] (fun b hb => extract_mem_cleanP hb) ?_ ?_
          · intro w hw
            simp at hw
          · exact Or.inr ⟨hs, rfl⟩
        · simp only [if_neg hs]
          exact translateLoop_writes_bound remaining.length remaining le_rfl st1 _ _ save _
            cancels _ [] (fun b hb => extract_mem_cleanP hb)
            (by intro w hw; simp at hw) (Or.inl rfl)
      | fatalAllExhausted =>
        rw [translateFile_firstFatal hl hreq]
        intro w hw
        simp at hw
      | raised m =>
        rw [translateFile_firstRaised hl hreq]
        intro w hw
        simp at hw
      | pending =>
        rw [translateFile_firstPending hl hreq]
        intro w hw
        simp at hw
  · rw [translateFile_loaded hl]
    exact translateLoop_writes_bound outcomes.length outcomes le_rfl st0 _ _ save fs
      cancels [] [] loadedProgress_clean (by intro w hw; simp at hw) (Or.inl rfl)

/-- Witness for C2 amended: a two-block job served by two one-block
responses produces two writes; the non-final write parses to one block,
fewer than the total of two. -/
theorem progress_writes_bounded_witness :
    "1\n00:00:00,000 --> 00:00:01,000\nOla".data ∈
      (translateFile
        "1\n00:00:00,000 --> 00:00:01,000\nHello\n\n2\n00:00:01,000 --> 00:00:02,000\nWorld".data
        ⟨none, none⟩ true
        [ApiOutcome.success "1\n00:00:00,000 --> 00:00:01,000\nOla".data,
          ApiOutcome.success "2\n00:00:01,000 --> 00:00:02,000\nMundo".data]
        [] stW).writes.dropLast ∧
    (extract_srt_blocks "1\n00:00:00,000 --> 00:00:01,000\nOla".data).length
      < count_srt_blocks
        "1\n00:00:00,000 --> 00:00:01,000\nHello\n\n2\n00:00:01,000 --> 00:00:02,000\nWorld".data := by
  have hw : (translateFile
      "1\n00:00:00,000 --> 00:00:01,000\nHello\n\n2\n00:00:01,000 --> 00:00:02,000\nWorld".data
      ⟨none, none⟩ true
      [ApiOutcome.success "1\n00:00:00,000 --> 00:00:01,000\nOla".data,
        ApiOutcome.success "2\n00:00:01,000 --> 00:00:02,000\nMundo".data]
      [] stW).writes.dropLast
      = ["1\n00:00:00,000 --> 00:00:01,000\nOla".data] := by
    simp [translateFile, translateLoop, makeApiRequest, checkNearCompletion, appendNew,
      count_srt_blocks, countAux, matchBlockHeadLen, matchTimingLen, isD, isPySpace,
      extract_srt_blocks, splitBlank, splitBlankAux, trySep, trySepGo, stripChars,
      matchLeadingIndex, matchIdxGo, joinSep, maxRetriesC, stW, loadedProgress, finishJob]
    norm_num
  constructor
  · rw [hw]
    exact List.mem_singleton_self _
  · exact progress_writes_bounded _ _ _ _ _ _ _ (by rw [hw]; exact List.mem_singleton_self _)

/-! ## Claim C9: counting versus extracting on clean concatenations -/

lemma isD_not_pySpace {c : Char} (h : isD c = true) : isPySpace c = false := by
  cases hw : isPySpace c with
  | false => rfl
  | true =>
    exfalso
    have hd : ((((c = ' ' ∨ c = '\t') ∨ c = '\n') ∨ c = '\r') ∨ c = '\x0b') ∨ c = '\x0c' := by
      simpa [isPySpace, decide_eq_true_iff] using hw
    rcases hd with ((((rfl | rfl) | rfl) | rfl) | rfl) | rfl <;> cases h

lemma isD_ne_nl {c : Char} (h : isD c = true) : c ≠ '\n' := by
  intro h0
  subst h0
  cases h

lemma digitChar_isD {n : Nat} (h : n < 10) : isD (digitChar n) = true := by
  interval_cases n <;> rfl

lemma pad2_all_isD {n : Nat} (h : n < 100) : ∀ x ∈ pad2 n, isD x = true := by
  intro x hx
  rcases List.mem_cons.mp hx with rfl | hx
  · exact digitChar_isD (Nat.div_lt_of_lt_mul (by omega))
  · rcases List.mem_cons.mp hx with rfl | hx
    · exact digitChar_isD (Nat.mod_lt _ (by omega))
    · cases hx

lemma pad3_all_isD {n : Nat} (h : n < 1000) : ∀ x ∈ pad3 n, isD x = true := by
  intro x hx
  rcases List.mem_cons.mp hx with rfl | hx
  · exact digitChar_isD (Nat.div_lt_of_lt_mul (by omega))
  · rcases List.mem_cons.mp hx with rfl | hx
    · exact digitChar_isD (Nat.mod_lt _ (by omega))
    · rcases List.mem_cons.mp hx with rfl | hx
      · exact digitChar_isD (Nat.mod_lt _ (by omega))
      · cases hx

lemma renderTimestamp_mem {t : Timestamp} (h : wfTimestamp t = true) :
    ∀ x ∈ renderTimestamp t, isD x = true ∨ x = ':' ∨ x = ',' := by
  have hb0 : ((t.hh < 100 ∧ t.mm < 100) ∧ t.ss < 100) ∧ t.ms < 1000 := by
    simpa [wfTimestamp, decide_eq_true_iff] using h
  have hb : t.hh < 100 ∧ t.mm < 100 ∧ t.ss < 100 ∧ t.ms < 1000 :=
    ⟨hb0.1.1.1, hb0.1.1.2, hb0.1.2, hb0.2⟩
  intro x hx
  unfold renderTimestamp at hx
  rcases List.mem_append.mp hx with hx | hx
  · exact Or.inl (pad2_all_isD hb.1 x hx)
  · rcases List.mem_cons.mp hx with rfl | hx
    · exact Or.inr (Or.inl rfl)
    · rcases List.mem_append.mp hx with hx | hx
      · exact Or.inl (pad2_all_isD hb.2.1 x hx)
      · rcases List.mem_cons.mp hx with rfl | hx
        · exact Or.inr (Or.inl rfl)
        · rcases List.mem_append.mp hx with hx | hx
          · exact Or.inl (pad2_all_isD hb.2.2.1 x hx)
          · rcases List.mem_cons.mp hx with rfl | hx
            · exact Or.inr (Or.inr rfl)
            · exact Or.inl (pad3_all_isD hb.2.2.2 x hx)

lemma renderTimestamp_noNl {t : Timestamp} (h : wfTimestamp t = true) :
    '\n' ∉ renderTimestamp t := by
  intro hx
  rcases renderTimestamp_mem h '\n' hx with h1 | h1 | h1
  · cases h1
  · cases h1
  · cases h1

lemma timingLine_noNl {b : SrtBlock} (h1 : wfTimestamp b.startT = true)
    (h2 : wfTimestamp b.endT = true) : '\n' ∉ timingLine b := by
  intro hx
  unfold timingLine at hx
  rcases List.mem_append.mp hx with hx | hx
  · exact renderTimestamp_noNl h1 hx
  · rcases List.mem_cons.mp hx with h0 | hx
    · cases h0
    · rcases List.mem_cons.mp hx with h0 | hx
      · cases h0
      · rcases List.mem_cons.mp hx with h0 | hx
        · cases h0
        · rcases List.mem_cons.mp hx with h0 | hx
          · cases h0
          · rcases List.mem_cons.mp hx with h0 | hx
            · cases h0
            · exact renderTimestamp_noNl h2 hx

lemma noNl_not_mem {l : List Char} (h : noNl l = true) : '\n' ∉ l := by
  simpa [noNl, decide_eq_true_iff] using h

lemma PpB_of_noNl {l : List Char} (h : '\n' ∉ l) : PpB l = true := by
  induction l with
  | nil => rfl
  | cons c r ih =>
    rw [PpB_cons, Bool.and_eq_true]
    have hc : c ≠ '\n' := fun h0 => h (h0 ▸ List.mem_cons_self _ _)
    exact ⟨by rw [if_neg hc], ih (fun hm => h (List.mem_cons_of_mem _ hm))⟩

lemma WtB_of_noNl {l : List Char} (h : '\n' ∉ l) : WtB l = true := by
  induction l with
  | nil => rfl
  | cons c r ih =>
    rw [WtB_cons, Bool.and_eq_true]
    have hc : c ≠ '\n' := fun h0 => h (h0 ▸ List.mem_cons_self _ _)
    exact ⟨by rw [if_neg hc], ih (fun hm => h (List.mem_cons_of_mem _ hm))⟩

lemma PpB_append_noNl {l m : List Char} (h : '\n' ∉ l) :
    PpB (l ++ m) = PpB m := by
  induction l with
  | nil => rfl
  | cons c r ih =>
    have hc : c ≠ '\n' := fun h0 => h (h0 ▸ List.mem_cons_self _ _)
    rw [List.cons_append, PpB_cons, if_neg hc, Bool.true_and]
    exact ih (fun hm => h (List.mem_cons_of_mem _ hm))

lemma WtB_append_noNl {l m : List Char} (h : '\n' ∉ l) :
    WtB (l ++ m) = WtB m := by
  induction l with
  | nil => rfl
  | cons c r ih =>
    have hc : c ≠ '\n' := fun h0 => h (h0 ▸ List.mem_cons_self _ _)
    rw [List.cons_append, WtB_cons, if_neg hc, Bool.true_and]
    exact ih (fun hm => h (List.mem_cons_of_mem _ hm))

lemma joinNl_head_decomp {l : List Char} (ls : List (List Char)) :
    ∃ r, joinNl (l :: ls) = l ++ r := by
  cases ls with
  | nil => exact ⟨[], by simp [joinNl]⟩
  | cons l2 ls => exact ⟨'\n' :: joinNl (l2 :: ls), rfl⟩

/-- A nonempty join of newline-free, non-blank lines satisfies both splitter
invariants. -/
lemma joinNl_Pp_Wt :
    ∀ (ls : List (List Char)), ls ≠ [] →
      (∀ l ∈ ls, '\n' ∉ l ∧ hasNonWs l = true) →
      PpB (joinNl ls) = true ∧ WtB (joinNl ls) = true := by
  intro ls
  induction ls with
  | nil => intro h; exact absurd rfl h
  | cons l ls ih =>
    intro _ hl
    cases ls with
    | nil =>
      have h0 := hl l (List.mem_cons_self _ _)
      exact ⟨PpB_of_noNl h0.1, WtB_of_noNl h0.1⟩
    | cons l2 ls2 =>
      have h0 := hl l (List.mem_cons_self _ _)
      have hrest := ih (by simp) (fun x hx => hl x (List.mem_cons_of_mem _ hx))
      have hl2 := hl l2 (by simp)
      have hJ : joinNl (l :: l2 :: ls2) = l ++ '\n' :: joinNl (l2 :: ls2) := rfl
      rcases @joinNl_head_decomp l2 ls2 with ⟨r, hr⟩
      have hhead : '\n' ∉ (joinNl (l2 :: ls2)).takeWhile isPySpace := by
        rw [hr, takeWhile_append_stop (hasNonWs_exists hl2.2)]
        intro hm
        exact hl2.1 (List.takeWhile_subset _ hm)
      constructor
      · rw [hJ, PpB_append_noNl h0.1, PpB_cons, Bool.and_eq_true]
        refine ⟨?_, hrest.1⟩
        rw [if_pos rfl]
        simpa using hhead
      · rw [hJ, WtB_append_noNl h0.1, WtB_cons, Bool.and_eq_true]
        refine ⟨?_, hrest.2⟩
        rw [if_pos rfl, hr]
        exact hasNonWs_append_left hl2.2

lemma takeWhile_all_append {p : Char → Bool} {l m : List Char}
    (h : ∀ x ∈ l, p x = true) : (l ++ m).takeWhile p = l ++ m.takeWhile p := by
  induction l with
  | nil => rfl
  | cons c r ih =>
    rw [List.cons_append, List.takeWhile_cons, if_pos (h c (List.mem_cons_self _ _)),
      ih (fun x hx => h x (List.mem_cons_of_mem _ hx)), List.cons_append]

lemma dropWhile_all_append {p : Char → Bool} {l m : List Char}
    (h : ∀ x ∈ l, p x = true) : (l ++ m).dropWhile p = m.dropWhile p := by
  induction l with
  | nil => rfl
  | cons c r ih =>
    rw [List.cons_append, List.dropWhile_cons, if_pos (h c (List.mem_cons_self _ _)),
      ih (fun x hx => h x (List.mem_cons_of_mem _ hx))]

lemma dropWhile_append_stop {p : Char → Bool} {l m : List Char}
    (h : ∃ c ∈ l, p c = false) : (l ++ m).dropWhile p = l.dropWhile p ++ m := by
  induction l with
  | nil =>
    rcases h with ⟨c, hc, _⟩
    cases hc
  | cons a r ih =>
    cases ha : p a with
    | true =>
      rw [List.cons_append, List.dropWhile_cons, if_pos ha, List.dropWhile_cons, if_pos ha]
      rcases h with ⟨c, hc, hcp⟩
      rcases List.mem_cons.mp hc with rfl | hc
      · rw [ha] at hcp; cases hcp
      · exact ih ⟨c, hc, hcp⟩
    | false =>
      rw [List.cons_append, List.dropWhile_cons, if_neg (by simp [ha]),
        List.dropWhile_cons, if_neg (by simp [ha]), List.cons_append]

lemma wfBlockLiberal_parts {b : SrtBlock} (h : wfBlockLiberal b = true) :
    b.idx ≠ [] ∧ (∀ x ∈ b.idx, isD x = true) ∧ wfTimestamp b.startT = true ∧
      wfTimestamp b.endT = true ∧ b.lines ≠ [] ∧
      (∀ l ∈ b.lines, '\n' ∉ l ∧ hasNonWs l = true) := by
  unfold wfBlockLiberal at h
  rw [Bool.and_eq_true, Bool.and_eq_true, Bool.and_eq_true, Bool.and_eq_true,
    Bool.and_eq_true] at h
  obtain ⟨⟨⟨⟨⟨h1, h2⟩, h3⟩, h4⟩, h5⟩, h6⟩ := h
  refine ⟨by simpa using h1, List.all_eq_true.mp h2, h3, h4, by simpa using h5, ?_⟩
  intro l hl
  have := List.all_eq_true.mp h6 l hl
  rw [Bool.and_eq_true] at this
  exact ⟨noNl_not_mem this.1, this.2⟩

lemma wfBlock_parts {b : SrtBlock} (h : wfBlock b = true) :
    wfBlockLiberal b = true ∧ ∀ l ∈ b.lines, isIndexLike l = false := by
  unfold wfBlock at h
  rw [Bool.and_eq_true] at h
  refine ⟨h.1, fun l hl => ?_⟩
  have := List.all_eq_true.mp h.2 l hl
  simpa using this

lemma renderBlock_as_joinNl {b : SrtBlock} (h : b.lines ≠ []) :
    renderBlock b = joinNl (b.idx :: timingLine b :: b.lines) := by
  cases hl : b.lines with
  | nil => exact absurd hl h
  | cons l ls =>
    unfold renderBlock
    rw [hl]
    rfl

lemma timingLine_hasNonWs {b : SrtBlock} (h : wfTimestamp b.startT = true) :
    hasNonWs (timingLine b) = true := by
  have hb0 : ((b.startT.hh < 100 ∧ b.startT.mm < 100) ∧ b.startT.ss < 100)
      ∧ b.startT.ms < 1000 := by
    simpa [wfTimestamp, decide_eq_true_iff] using h
  have hd : isD (digitChar (b.startT.hh / 10)) = true :=
    digitChar_isD (Nat.div_lt_of_lt_mul (by omega))
  refine List.any_eq_true.mpr ⟨digitChar (b.startT.hh / 10), ?_, by simp [isD_not_pySpace hd]⟩
  unfold timingLine renderTimestamp pad2
  exact List.mem_append_left _ (List.mem_append_left _ (List.mem_cons_self _ _))

lemma idx_hasNonWs {b : SrtBlock} (h1 : b.idx ≠ []) (h2 : ∀ x ∈ b.idx, isD x = true) :
    hasNonWs b.idx = true := by
  cases hi : b.idx with
  | nil => exact absurd hi h1
  | cons c r =>
    have hc : isD c = true := h2 c (by rw [hi]; exact List.mem_cons_self _ _)
    exact List.any_eq_true.mpr ⟨c, List.mem_cons_self _ _, by simp [isD_not_pySpace hc]⟩

/-- The rendered block satisfies both splitter invariants. -/
lemma renderBlock_Pp_Wt {b : SrtBlock} (h : wfBlockLiberal b = true) :
    PpB (renderBlock b) = true ∧ WtB (renderBlock b) = true := by
  obtain ⟨h1, h2, h3, h4, h5, h6⟩ := wfBlockLiberal_parts h
  rw [renderBlock_as_joinNl h5]
  refine joinNl_Pp_Wt _ (by simp) ?_
  intro l hl
  rcases List.mem_cons.mp hl with rfl | hl
  · exact ⟨fun hm => (isD_ne_nl (h2 _ hm)) rfl, idx_hasNonWs h1 h2⟩
  · rcases List.mem_cons.mp hl with rfl | hl
    · exact ⟨timingLine_noNl h3 h4, timingLine_hasNonWs h3⟩
    · exact h6 l hl

lemma renderBlock_head_nonWs {b : SrtBlock} (h : wfBlockLiberal b = true) :
    ∀ c, (renderBlock b).head? = some c → isPySpace c = false := by
  obtain ⟨h1, h2, _, _, _, _⟩ := wfBlockLiberal_parts h
  intro c hc
  cases hi : b.idx with
  | nil => exact absurd hi h1
  | cons a r =>
    unfold renderBlock at hc
    rw [hi] at hc
    rw [List.cons_append, List.head?_cons, Option.some.injEq] at hc
    exact hc ▸ isD_not_pySpace (h2 a (by rw [hi]; exact List.mem_cons_self _ _))

lemma renderBlock_ne_nil {b : SrtBlock} (h : wfBlockLiberal b = true) :
    renderBlock b ≠ [] := by
  obtain ⟨h1, _, _, _, _, _⟩ := wfBlockLiberal_parts h
  cases hi : b.idx with
  | nil => exact absurd hi h1
  | cons a r =>
    unfold renderBlock
    rw [hi]
    simp

/-- The stripped rendered block still begins with the bare index line. -/
lemma stripChars_renderBlock_decomp {b : SrtBlock} (h : wfBlockLiberal b = true) :
    ∃ t, stripChars (renderBlock b) = b.idx ++ '\n' :: t := by
  obtain ⟨h1, h2, h3, h4, h5, h6⟩ := wfBlockLiberal_parts h
  have hdrop : (renderBlock b).dropWhile isPySpace = renderBlock b := by
    cases hi : b.idx with
    | nil => exact absurd hi h1
    | cons a r =>
      have ha : isD a = true := h2 a (by rw [hi]; exact List.mem_cons_self _ _)
      unfold renderBlock
      rw [hi, List.cons_append, List.dropWhile_cons, if_neg (by simp [isD_not_pySpace ha])]
  have hJnonws : ∃ d ∈ (joinNl b.lines).reverse, isPySpace d = false := by
    cases hl : b.lines with
    | nil => exact absurd hl h5
    | cons l ls =>
      rcases @joinNl_head_decomp l ls with ⟨r, hr⟩
      have := h6 l (by rw [hl]; exact List.mem_cons_self _ _)
      rcases hasNonWs_exists this.2 with ⟨d, hd, hdp⟩
      exact ⟨d, List.mem_reverse.mpr (by rw [hr]; exact List.mem_append_left _ hd), hdp⟩
  refine ⟨timingLine b ++ '\n' :: ((joinNl b.lines).reverse.dropWhile isPySpace).reverse, ?_⟩
  unfold stripChars
  rw [hdrop]
  have hrev : (renderBlock b).reverse
      = (joinNl b.lines).reverse ++ '\n' :: ((timingLine b).reverse ++ '\n' :: b.idx.reverse) := by
    unfold renderBlock
    simp
  rw [hrev, dropWhile_append_stop hJnonws]
  simp

lemma matchLeadingIndex_of_decomp {idx t : List Char} (h1 : idx ≠ [])
    (h2 : ∀ x ∈ idx, isD x = true) : matchLeadingIndex (idx ++ '\n' :: t) = true := by
  unfold matchLeadingIndex
  rw [takeWhile_all_append h2, dropWhile_all_append h2]
  rw [List.takeWhile_cons, if_neg (by simp [isD])]
  rw [List.dropWhile_cons, if_neg (by simp [isD])]
  simp only [List.append_nil, Bool.and_eq_true, decide_eq_true_iff]
  exact ⟨h1, rfl⟩

lemma stripChars_ne_nil_of_hasNonWs {l : List Char} (h : hasNonWs l = true) :
    stripChars l ≠ [] := by
  rcases hasNonWs_exists h with ⟨d, hd, hdp⟩
  intro h0
  have hB : (l.dropWhile isPySpace).reverse.dropWhile isPySpace = [] := by
    unfold stripChars at h0
    exact List.reverse_eq_nil_iff.mp h0
  have hallA : ∀ x ∈ l.dropWhile isPySpace, isPySpace x = true := fun x hx =>
    List.dropWhile_eq_nil_iff.mp hB x (List.mem_reverse.mpr hx)
  have hd2 := hd
  rw [← List.takeWhile_append_dropWhile isPySpace l] at hd2
  rcases List.mem_append.mp hd2 with hd3 | hd3
  · rw [List.mem_takeWhile_imp hd3] at hdp
    cases hdp
  · rw [hallA d hd3] at hdp
    cases hdp

lemma renderBlock_hasNonWs {b : SrtBlock} (h : wfBlockLiberal b = true) :
    hasNonWs (renderBlock b) = true := by
  obtain ⟨h1, h2, _, _, _, _⟩ := wfBlockLiberal_parts h
  rcases hasNonWs_exists (idx_hasNonWs h1 h2) with ⟨d, hd, hdp⟩
  refine List.any_eq_true.mpr ⟨d, ?_, by simp [hdp]⟩
  unfold renderBlock
  exact List.mem_append_left _ hd

/-- The extract side of the codec claim: on a clean concatenation of
well-formed blocks, extraction returns one (stripped) block per rendered
block. -/
lemma extract_renderBlocks_length {bs : List SrtBlock}
    (h : ∀ b ∈ bs, wfBlockLiberal b = true) :
    (extract_srt_blocks (renderBlocks bs)).length = bs.length := by
  cases bs with
  | nil =>
    rw [show renderBlocks [] = [] from rfl, extract_empty]
    rfl
  | cons b bs =>
    have hsplit : splitBlank (renderBlocks (b :: bs)) = (b :: bs).map renderBlock := by
      unfold renderBlocks splitBlank
      rw [List.map_cons,
        splitBlankAux_joinSep (bs.map renderBlock) (renderBlock b) ?_ []]
      · rw [List.nil_append]
      · intro x hx
        rw [← List.map_cons] at hx
        rcases List.mem_map.mp hx with ⟨b2, hb2, rfl⟩
        have hw := h b2 hb2
        exact ⟨renderBlock_ne_nil hw, (renderBlock_Pp_Wt hw).1, (renderBlock_Pp_Wt hw).2,
          renderBlock_head_nonWs hw⟩
    unfold extract_srt_blocks
    rw [hsplit]
    have hmem : ∀ x ∈ ((b :: bs).map renderBlock).map stripChars,
        x ≠ [] ∧ matchLeadingIndex x = true := by
      intro x hx
      rcases List.mem_map.mp hx with ⟨y, hy, rfl⟩
      rcases List.mem_map.mp hy with ⟨b2, hb2, rfl⟩
      have hw := h b2 hb2
      rcases stripChars_renderBlock_decomp hw with ⟨t, ht⟩
      obtain ⟨h1, h2, _, _, _, _⟩ := wfBlockLiberal_parts hw
      refine ⟨stripChars_ne_nil_of_hasNonWs (renderBlock_hasNonWs hw), ?_⟩
      rw [ht]
      exact matchLeadingIndex_of_decomp h1 h2
    have hf1 : List.filter (fun x => decide (x ≠ []))
        (((b :: bs).map renderBlock).map stripChars)
        = ((b :: bs).map renderBlock).map stripChars :=
      List.filter_eq_self.mpr (fun x hx => by simp [(hmem x hx).1])
    have hf2 : List.filter matchLeadingIndex (((b :: bs).map renderBlock).map stripChars)
        = ((b :: bs).map renderBlock).map stripChars :=
      List.filter_eq_self.mpr (fun x hx => (hmem x hx).2)
    rw [hf1, hf2, List.length_map, List.length_map]

/-! ### The count side -/

set_option maxHeartbeats 1000000 in
lemma countAux_nil {s : Bool} : countAux [] s = 0 := by
  rw [countAux]

lemma countAux_false_cons {c : Char} {rest : List Char} :
    countAux (c :: rest) false = countAux rest (decide (c = '\n')) := by
  rw [countAux]
  rw [if_neg (by simp : ¬ (false = true))]

lemma countAux_true_none {c : Char} {rest : List Char}
    (h : matchBlockHeadLen (c :: rest) = none) :
    countAux (c :: rest) true = countAux rest (decide (c = '\n')) := by
  rw [countAux]
  rw [if_pos rfl, h]

lemma countAux_true_some {c : Char} {rest : List Char} {n : Nat}
    (h : matchBlockHeadLen (c :: rest) = some n) :
    countAux (c :: rest) true = 1 + countAux (rest.drop (n - 1)) false := by
  rw [countAux]
  rw [if_pos rfl, h]

lemma countAux_passNoStart :
    ∀ (u : List Char), '\n' ∉ u → ∀ l, countAux (u ++ l) false = countAux l false := by
  intro u
  induction u with
  | nil => intro _ l; rfl
  | cons c u ih =>
    intro h l
    have hc : ¬ c = '\n' := fun h0 => h (h0 ▸ List.mem_cons_self _ _)
    rw [List.cons_append, countAux_false_cons, decide_eq_false hc]
    exact ih (fun hm => h (List.mem_cons_of_mem _ hm)) l

lemma matchBlockHeadLen_none_head {c : Char} {r : List Char} (h : isD c = false) :
    matchBlockHeadLen (c :: r) = none := by
  simp [matchBlockHeadLen, List.takeWhile_cons, h]

/-- A well-formed text line (not a bare integer line) can never start a
counted block, whatever follows it. -/
lemma matchFail_textline {line : List Char} (z : List Char) (hnl : '\n' ∉ line)
    (hnw : hasNonWs line = true) (hidx : isIndexLike line = false) :
    matchBlockHeadLen (line ++ z) = none := by
  cases hline : line with
  | nil =>
    rw [hline] at hnw
    cases hnw
  | cons c line2 =>
    subst hline
    by_cases hc : isD c = true
    · have hnotall : ¬ ∀ x ∈ c :: line2, isD x = true := by
        intro hall
        have h1 : (c :: line2).takeWhile isD = c :: line2 := by
          have := @takeWhile_all_append isD (c :: line2) [] hall
          simpa using this
        have h2 : (c :: line2).dropWhile isD = [] :=
          List.dropWhile_eq_nil_iff.mpr (by simpa using hall)
        have : isIndexLike (c :: line2) = true := by
          unfold isIndexLike
          rw [h1, h2]
          simp
        rw [this] at hidx
        cases hidx
      have hexd : ∃ d ∈ c :: line2, isD d = false := by
        by_contra hno
        push_neg at hno
        exact hnotall (fun x hx => by
          have := hno x hx
          cases hdx : isD x with
          | true => rfl
          | false => exact absurd hdx this)
      have htake : (c :: line2 ++ z).takeWhile isD = (c :: line2).takeWhile isD :=
        takeWhile_append_stop hexd
      have hdropz : (c :: line2 ++ z).dropWhile isD = (c :: line2).dropWhile isD ++ z :=
        dropWhile_append_stop hexd
      have hLne : (c :: line2).dropWhile isD ≠ [] := by
        intro h0
        exact hnotall (by simpa using List.dropWhile_eq_nil_iff.mp h0)
      by_cases hLws : ∀ x ∈ (c :: line2).dropWhile isD, isPySpace x = true
      · exfalso
        have : isIndexLike (c :: line2) = true := by
          unfold isIndexLike
          rw [List.takeWhile_cons, if_pos hc]
          simp only [Bool.and_eq_true, decide_eq_true_iff]
          exact ⟨by simp, List.all_eq_true.mpr hLws⟩
        rw [this] at hidx
        cases hidx
      · have hexw : ∃ e ∈ (c :: line2).dropWhile isD, isPySpace e = false := by
          by_contra hno
          push_neg at hno
          exact hLws (fun x hx => by
            have := hno x hx
            cases hwx : isPySpace x with
            | true => rfl
            | false => exact absurd hwx this)
        have hw : (((c :: line2).dropWhile isD ++ z).takeWhile isPySpace).getLast?
            ≠ some '\n' := by
          rw [takeWhile_append_stop hexw]
          intro h0
          have hmem := getLast?_mem h0
          have hmem2 := List.takeWhile_subset _ hmem
          have hmem3 : '\n' ∈ c :: line2 := by
            have h3 := List.takeWhile_append_dropWhile isD (c :: line2)
            rw [← h3]
            exact List.mem_append_right _ hmem2
          exact hnl hmem3
        have hds : (c :: line2 ++ z).takeWhile isD ≠ [] := by
          rw [htake, List.takeWhile_cons, if_pos hc]
          simp
        simp only [matchBlockHeadLen]
        rw [if_neg hds, hdropz, if_neg hw]
    · have hc2 : isD c = false := by
        cases hdx : isD c with
        | true => exact absurd hdx hc
        | false => rfl
      exact matchBlockHeadLen_none_head hc2

lemma matchBlockHeadLen_none_nl {r : List Char} : matchBlockHeadLen ('\n' :: r) = none :=
  matchBlockHeadLen_none_head rfl

/-- Consuming one well-formed text line from a line start counts nothing. -/
lemma countAux_lineSkip {line : List Char} (hnl : '\n' ∉ line)
    (hnw : hasNonWs line = true) (hidx : isIndexLike line = false) :
    ∀ tail, countAux (line ++ tail) true = countAux tail false := by
  intro tail
  cases hline : line with
  | nil =>
    rw [hline] at hnw
    cases hnw
  | cons c line2 =>
    subst hline
    have hfail := matchFail_textline tail hnl hnw hidx
    rw [List.cons_append] at hfail ⊢
    rw [countAux_true_none hfail]
    have hc : ¬ c = '\n' := fun h0 => hnl (h0 ▸ List.mem_cons_self _ _)
    rw [decide_eq_false hc]
    exact countAux_passNoStart line2 (fun hm => hnl (List.mem_cons_of_mem _ hm)) tail

/-- Scanning the joined well-formed text lines of one block counts nothing
and hands the scan to the continuation with the line-start flag cleared. -/
lemma countAux_textLines :
    ∀ (ls : List (List Char)) (l0 : List Char),
      (∀ l ∈ l0 :: ls, '\n' ∉ l ∧ hasNonWs l = true ∧ isIndexLike l = false) →
      ∀ z, countAux (joinNl (l0 :: ls) ++ z) true = countAux z false := by
  intro ls
  induction ls with
  | nil =>
    intro l0 h z
    have h0 := h l0 (List.mem_cons_self _ _)
    exact countAux_lineSkip h0.1 h0.2.1 h0.2.2 z
  | cons l1 ls ih =>
    intro l0 h z
    have h0 := h l0 (List.mem_cons_self _ _)
    have hJ : joinNl (l0 :: l1 :: ls) ++ z
        = l0 ++ '\n' :: (joinNl (l1 :: ls) ++ z) := by
      rw [show joinNl (l0 :: l1 :: ls) = l0 ++ '\n' :: joinNl (l1 :: ls) from rfl]
      simp
    rw [hJ]
    cases hl0 : l0 with
    | nil =>
      rw [hl0] at h0
      cases h0.2.1
    | cons c l02 =>
      subst hl0
      have hfail := matchFail_textline ('\n' :: (joinNl (l1 :: ls) ++ z)) h0.1 h0.2.1 h0.2.2
      rw [List.cons_append] at hfail ⊢
      rw [countAux_true_none hfail]
      have hc : ¬ c = '\n' := fun hx => h0.1 (hx ▸ List.mem_cons_self _ _)
      rw [decide_eq_false hc,
        countAux_passNoStart l02 (fun hm => h0.1 (List.mem_cons_of_mem _ hm)) _,
        countAux_false_cons]
      rw [show decide ('\n' = '\n') = true by simp]
      exact ih l1 (fun x hx => h x (List.mem_cons_of_mem _ hx)) z

lemma drop_append_len : ∀ (u v : List Char) (k : Nat), (u ++ v).drop (u.length + k) = v.drop k := by
  intro u
  induction u with
  | nil => intro v k; simp
  | cons c u ih =>
    intro v k
    have h1 : (c :: u).length + k = (u.length + k) + 1 := by
      rw [List.length_cons]
      omega
    rw [h1, List.cons_append, List.drop_succ_cons]
    exact ih v k

/-- The timing pattern `\d{2}:\d{2}:\d{2},\d{3}\s*-->` matches a rendered
well-formed timing line, consuming exactly 16 characters. -/
lemma matchTimingLen_success {S : Timestamp} (h : wfTimestamp S = true) (z0 : List Char) :
    matchTimingLen (renderTimestamp S ++ ' ' :: '-' :: '-' :: '>' :: z0) = some 16 := by
  have hb : ((S.hh < 100 ∧ S.mm < 100) ∧ S.ss < 100) ∧ S.ms < 1000 := by
    simpa [wfTimestamp, decide_eq_true_iff] using h
  have e1 : isD (digitChar (S.hh / 10)) = true :=
    digitChar_isD (Nat.div_lt_of_lt_mul (by omega))
  have e2 : isD (digitChar (S.hh % 10)) = true := digitChar_isD (Nat.mod_lt _ (by omega))
  have e4 : isD (digitChar (S.mm / 10)) = true :=
    digitChar_isD (Nat.div_lt_of_lt_mul (by omega))
  have e5 : isD (digitChar (S.mm % 10)) = true := digitChar_isD (Nat.mod_lt _ (by omega))
  have e7 : isD (digitChar (S.ss / 10)) = true :=
    digitChar_isD (Nat.div_lt_of_lt_mul (by omega))
  have e8 : isD (digitChar (S.ss % 10)) = true := digitChar_isD (Nat.mod_lt _ (by omega))
  have e10 : isD (digitChar (S.ms / 100)) = true :=
    digitChar_isD (Nat.div_lt_of_lt_mul (by omega))
  have e11 : isD (digitChar (S.ms / 10 % 10)) = true :=
    digitChar_isD (Nat.mod_lt _ (by omega))
  have e12 : isD (digitChar (S.ms % 10)) = true := digitChar_isD (Nat.mod_lt _ (by omega))
  have hsp : isPySpace ' ' = true := rfl
  have hdash : isPySpace '-' = false := rfl
  show matchTimingLen (digitChar (S.hh / 10) :: digitChar (S.hh % 10) :: ':'
      :: digitChar (S.mm / 10) :: digitChar (S.mm % 10) :: ':'
      :: digitChar (S.ss / 10) :: digitChar (S.ss % 10) :: ','
      :: digitChar (S.ms / 100) :: digitChar (S.ms / 10 % 10) :: digitChar (S.ms % 10)
      :: ' ' :: '-' :: '-' :: '>' :: z0) = some 16
  simp only [matchTimingLen]
  rw [if_pos (by simp [e1, e2, e4, e5, e7, e8, e10, e11, e12])]
  rw [List.dropWhile_cons, if_pos hsp, List.dropWhile_cons, if_neg (by simp [hdash])]
  rw [List.takeWhile_cons, if_pos hsp, List.takeWhile_cons, if_neg (by simp [hdash])]
  norm_num

/-- `^\d+\s*\n` followed by the timing pattern matches exactly at the head of
a rendered well-formed block: the digits are the index line, `\s*` takes just
the newline, and the timing line follows.  The match consumes the index plus
17 characters. -/
lemma matchBlockHeadLen_success {b : SrtBlock} (hwf : wfBlockLiberal b = true) (z0 : List Char) :
    matchBlockHeadLen (renderBlock b ++ z0) = some (b.idx.length + 17) := by
  obtain ⟨hne, hdig, hS, hE, hlne, hlines⟩ := wfBlockLiberal_parts hwf
  have hb : ((b.startT.hh < 100 ∧ b.startT.mm < 100) ∧ b.startT.ss < 100)
      ∧ b.startT.ms < 1000 := by
    simpa [wfTimestamp, decide_eq_true_iff] using hS
  have hd1 : isD (digitChar (b.startT.hh / 10)) = true :=
    digitChar_isD (Nat.div_lt_of_lt_mul (by omega))
  have hnw1 : isPySpace (digitChar (b.startT.hh / 10)) = false := isD_not_pySpace hd1
  obtain ⟨T2, hT2⟩ : ∃ T2, timingLine b = digitChar (b.startT.hh / 10) :: T2 := ⟨_, rfl⟩
  have hM : timingLine b ++ '\n' :: (joinNl b.lines ++ z0)
      = digitChar (b.startT.hh / 10) :: (T2 ++ '\n' :: (joinNl b.lines ++ z0)) := by
    rw [hT2]
    rfl
  have hassoc : renderBlock b ++ z0
      = b.idx ++ '\n' :: (timingLine b ++ '\n' :: (joinNl b.lines ++ z0)) := by
    simp [renderBlock]
  have hnlD : isD '\n' = false := rfl
  have ht1 : (b.idx ++ '\n' :: (timingLine b ++ '\n' :: (joinNl b.lines ++ z0))).takeWhile isD
      = b.idx := by
    rw [takeWhile_all_append hdig]
    simp [List.takeWhile_cons, hnlD]
  have ht2 : (b.idx ++ '\n' :: (timingLine b ++ '\n' :: (joinNl b.lines ++ z0))).dropWhile isD
      = '\n' :: (timingLine b ++ '\n' :: (joinNl b.lines ++ z0)) := by
    rw [dropWhile_all_append hdig]
    simp [List.dropWhile_cons, hnlD]
  have ht3 : ('\n' :: (timingLine b ++ '\n' :: (joinNl b.lines ++ z0))).takeWhile isPySpace
      = ['\n'] := by
    rw [List.takeWhile_cons, if_pos isPySpace_nl, hM, List.takeWhile_cons]
    rw [if_neg (by simp [hnw1])]
  have ht4 : ('\n' :: (timingLine b ++ '\n' :: (joinNl b.lines ++ z0))).dropWhile isPySpace
      = timingLine b ++ '\n' :: (joinNl b.lines ++ z0) := by
    rw [List.dropWhile_cons, if_pos isPySpace_nl, hM, List.dropWhile_cons]
    rw [if_neg (by simp [hnw1])]
  have ht5 : timingLine b ++ '\n' :: (joinNl b.lines ++ z0)
      = renderTimestamp b.startT ++ ' ' :: '-' :: '-' :: '>'
          :: (' ' :: (renderTimestamp b.endT ++ '\n' :: (joinNl b.lines ++ z0))) := by
    simp [timingLine]
  have ht6 := matchTimingLen_success hS
    (' ' :: (renderTimestamp b.endT ++ '\n' :: (joinNl b.lines ++ z0)))
  rw [hassoc]
  simp only [matchBlockHeadLen]
  rw [ht1, ht2, ht3, ht4, if_neg hne, if_pos (show List.getLast? ['\n'] = some '\n' from rfl)]
  rw [ht5, ht6]
  simp only [List.length_cons, List.length_nil]

/-- Scanning one rendered well-formed block from a line start counts exactly
one match and hands over just past `-->`, mid-line. -/
lemma countAux_block {b : SrtBlock} (hwf : wfBlock b = true) (z : List Char) :
    countAux (renderBlock b ++ z) true = 1 + countAux z false := by
  obtain ⟨hwfl, hnotIdx⟩ := wfBlock_parts hwf
  obtain ⟨hne, hdig, hS, hE, hlne, hlines⟩ := wfBlockLiberal_parts hwfl
  have hmatch := matchBlockHeadLen_success hwfl z
  have hdrop : (timingLine b ++ '\n' :: (joinNl b.lines ++ z)).drop 16
      = ' ' :: (renderTimestamp b.endT ++ '\n' :: (joinNl b.lines ++ z)) := by
    have hd : timingLine b ++ '\n' :: (joinNl b.lines ++ z)
        = (renderTimestamp b.startT ++ [' ', '-', '-', '>'])
          ++ (' ' :: (renderTimestamp b.endT ++ '\n' :: (joinNl b.lines ++ z))) := by
      simp [timingLine]
    have h16 : (16 : Nat) = (renderTimestamp b.startT ++ [' ', '-', '-', '>']).length + 0 := by
      simp [renderTimestamp, pad2, pad3]
    rw [hd, h16, drop_append_len, List.drop_zero]
  cases hidx : b.idx with
  | nil => exact absurd hidx hne
  | cons c idx2 =>
    have hshape : renderBlock b ++ z
        = c :: (idx2 ++ '\n' :: (timingLine b ++ '\n' :: (joinNl b.lines ++ z))) := by
      unfold renderBlock
      rw [hidx]
      simp
    rw [hshape] at hmatch ⊢
    rw [countAux_true_some hmatch]
    congr 1
    have hn1 : b.idx.length + 17 - 1 = idx2.length + (16 + 1) := by
      rw [hidx, List.length_cons]
      omega
    rw [hn1, drop_append_len idx2 _ (16 + 1), List.drop_succ_cons, hdrop]
    rw [countAux_false_cons, show decide (' ' = '\n') = false from rfl]
    rw [countAux_passNoStart (renderTimestamp b.endT) (renderTimestamp_noNl hE) _]
    rw [countAux_false_cons, show decide ('\n' = '\n') = true by simp]
    cases hl : b.lines with
    | nil => exact absurd hl hlne
    | cons l0 ls =>
      refine countAux_textLines ls l0 (fun x hx => ?_) z
      have hx2 : x ∈ b.lines := hl ▸ hx
      exact ⟨(hlines x hx2).1, (hlines x hx2).2, hnotIdx x hx2⟩

/-- Counting a clean rendering of well-formed blocks sees each block exactly
once. -/
lemma count_renderBlocks {bs : List SrtBlock} (h : ∀ b ∈ bs, wfBlock b = true) :
    count_srt_blocks (renderBlocks bs) = bs.length := by
  induction bs with
  | nil => exact countAux_nil
  | cons b bs ih =>
    cases bs with
    | nil =>
      have h1 : renderBlocks [b] = renderBlock b ++ [] := by
        simp [renderBlocks, joinSep]
      unfold count_srt_blocks
      rw [h1, countAux_block (h b (List.mem_cons_self _ _)) [], countAux_nil]
      rfl
    | cons b2 bs2 =>
      have h1 : renderBlocks (b :: b2 :: bs2)
          = renderBlock b ++ ('\n' :: '\n' :: renderBlocks (b2 :: bs2)) := rfl
      unfold count_srt_blocks
      rw [h1, countAux_block (h b (List.mem_cons_self _ _)) _]
      rw [countAux_false_cons, show decide ('\n' = '\n') = true by simp]
      rw [countAux_true_none matchBlockHeadLen_none_nl,
        show decide ('\n' = '\n') = true by simp]
      have h2 := ih (fun x hx => h x (List.mem_cons_of_mem _ hx))
      unfold count_srt_blocks at h2
      rw [h2, List.length_cons, List.length_cons, List.length_cons]
      omega

/-- C9, counterexample: a clean concatenation of blocks, each with an integer
index line, a timing line and nonempty newline-free text lines exactly as the
claim words it (`wfBlockLiberal`), on which `count_srt_blocks` disagrees with
`len(extract_srt_blocks)`: the single block's first text line is the bare
integer `2` and its second text line looks like a timing line, so the
`MULTILINE` counting regex fires a second time inside the block (count 2),
while the splitter on blank lines still sees one block (length 1). -/
theorem count_extract_mismatch_counterexample :
    wfBlockLiberal cxBlock = true ∧
      count_srt_blocks (renderBlocks [cxBlock]) = 2 ∧
      (extract_srt_blocks (renderBlocks [cxBlock])).length = 1 := by
  have hr : renderBlocks [cxBlock]
      = "1\n00:00:00,000 --> 00:00:01,000\n2\n00:00:01,000 --> 00:00:02,000".data := by
    decide
  refine ⟨by decide, ?_, ?_⟩
  · rw [hr]
    simp [count_srt_blocks, countAux, matchBlockHeadLen, matchTimingLen, isD, isPySpace]
  · rw [hr]
    simp [extract_srt_blocks, splitBlank, splitBlankAux, trySep, trySepGo, stripChars,
      matchLeadingIndex, matchIdxGo, isD, isPySpace]

/-- C9 (amended): for every clean concatenation of well-formed subtitle
blocks — integer index line, timing line, one or more nonempty newline-free
text lines, and additionally no text line consisting solely of digits
optionally followed by whitespace — `count_srt_blocks` agrees with the length
of `extract_srt_blocks`, both equal to the number of blocks; and the empty
input yields a zero count and no blocks. -/
theorem count_matches_extract (bs : List SrtBlock)
    (h : ∀ b ∈ bs, wfBlock b = true) :
    count_srt_blocks (renderBlocks bs) = bs.length ∧
      (extract_srt_blocks (renderBlocks bs)).length = bs.length ∧
      count_srt_blocks [] = 0 ∧ extract_srt_blocks [] = [] :=
  ⟨count_renderBlocks h,
    extract_renderBlocks_length (fun b hb => (wfBlock_parts (h b hb)).1),
    countAux_nil, extract_empty⟩

/-- C9, witness: a concrete one-block clean concatenation on which the count
and the extraction length agree at 1. -/
theorem count_matches_extract_witness :
    (∀ b ∈ [wBlock], wfBlock b = true) ∧
      count_srt_blocks (renderBlocks [wBlock]) = 1 ∧
      (extract_srt_blocks (renderBlocks [wBlock])).length = 1 := by
  have h : ∀ b ∈ [wBlock], wfBlock b = true := by decide
  have h2 := count_matches_extract [wBlock] h
  exact ⟨h, h2.1.trans rfl, h2.2.1.trans rfl⟩

end Translatity
